import Mathlib

/-!
Verification model of the blang virtual machine core (src/src/vm.c,
src/src/object.c, src/src/memory.c and the headers vm.h / object.h).

The C code is shallowly embedded: heap objects are stored in per-kind heaps
inside the `VM` structure and referenced by their index (a stable model of the
object pointers); the value stack is a `List Value` indexed from the stack
base, so the `stackTop` cursor is the list length; `uint32_t` arithmetic is
`Nat` arithmetic reduced modulo `2 ^ 32`.  The parts of the repository that
are declared but not present under src (`table.c`, `memory.h`) are modelled from
the specification and marked as such in their doc comments.
-/

namespace Blang

/-- Runtime values: the tagged union `Value`.  Numbers are modelled as
integers (every claim under study involves only integral values); heap objects
are referenced by an index into the per-kind heaps of the `VM` structure
below; an interned string value is identified by its character content, which
is faithful by the intern-canonicity invariant proved on the interning model. -/
inductive Value where
  | nil
  | bool (b : Bool)
  | num (x : Int)
  | str (chars : String)
  | closureRef (id : Nat)
  | nativeRef (id : Nat)
  | listRef (id : Nat)
  | functionRef (id : Nat)
deriving DecidableEq, Repr

/-- Model of `IS_OBJ`: whether a value is a heap-object reference. -/
def isObjValue : Value → Bool
  | Value.nil => false
  | Value.bool _ => false
  | Value.num _ => false
  | _ => true

/-- Model of `AS_CSTRING` on a value expected to be a string. -/
def getStr : Value → String
  | Value.str c => c
  | _ => ""

/-- The target of an upvalue's `location` pointer: either a slot of the VM
value stack (the OPEN state) or the upvalue's own `closed` field (the CLOSED
state). -/
inductive Loc where
  | slot (i : Nat)
  | ownClosed
deriving DecidableEq, Repr

/-- Model of `ObjUpvalue` (object.h): the `location` pointer and the `closed`
field.  The `next` link is modelled by the position of the upvalue's id in
`VM.openUpvalues`. -/
structure ObjUpvalue where
  location : Loc
  closed : Value
deriving DecidableEq, Repr

/-- Model of `ObjList` (object.h): `items` is the backing array (its length
models `capacity`), `count` is the number of live elements. -/
structure ObjList where
  items : List Value
  count : Nat
deriving DecidableEq, Repr

/-- Model of `ObjFunction` restricted to what the claims need: the arity.  The
chunk is abstracted away; its first instruction byte has offset `0`, which is
the `ip` a fresh frame starts at. -/
structure ObjFunction where
  arity : Nat
deriving DecidableEq, Repr

/-- Model of `NativeResult` (object.h). -/
structure NativeResult where
  isError : Bool
  result : Value
deriving DecidableEq, Repr

/-- Model of `ObjNative`: arity (`-1` means variadic) and the host function.
The host function is modelled as a pure function of the argument count and the
argument values (`vm.stackTop - argCount` points at `argCount` stack values);
the natives whose effects the claims mention are modelled separately. -/
structure ObjNative where
  arity : Int
  function : Nat → List Value → NativeResult

/-- Model of `ObjClosure`: the function id and the captured upvalue ids. -/
structure ObjClosure where
  function : Nat
  upvalues : List Nat
deriving DecidableEq, Repr

/-- Model of `ObjString` for the interning development: the byte content, the
cached hash and the ownership flag. -/
structure ObjString where
  chars : List Nat
  hash : Nat
  ownsChars : Bool
deriving DecidableEq, Repr

/-- Model of `CallFrame` (vm.h): the active closure, the saved instruction
offset, and the frame's base slot (`slots` points into the value stack). -/
structure CallFrame where
  closure : Nat
  ip : Nat
  slots : Nat
deriving DecidableEq, Repr

/-- Model of the `VM` structure (vm.h).  `frames` lists the active frames with
the innermost frame first; `openUpvalues` lists the ids of the open upvalues
in the order of the intrusive `next` chain. -/
structure VM where
  stack : List Value
  frames : List CallFrame
  globals : List (String × Value)
  openUpvalues : List Nat
  heapUpvalues : List ObjUpvalue
  heapClosures : List ObjClosure
  heapFunctions : List ObjFunction
  heapNatives : List ObjNative
  heapLists : List ObjList

/-- Outcome of executing one opcode handler: continue with a new state, finish
with `INTERPRET_OK`, or report a runtime error (the carried state is the state
after `runtimeError` has reset the VM, and the string is the diagnostic
message) and return `INTERPRET_RUNTIME_ERROR` from `run`. -/
inductive StepResult where
  | ok (s : VM)
  | finished (s : VM)
  | err (s : VM) (msg : String)

def FRAMES_MAX : Nat := 64

def STACK_MAX : Nat := 256

def dfltUpvalue : ObjUpvalue := ⟨Loc.ownClosed, Value.nil⟩

def dfltList : ObjList := ⟨[], 0⟩

def dfltClosure : ObjClosure := ⟨0, []⟩

def dfltFunction : ObjFunction := ⟨0⟩

def dfltNative : ObjNative := ⟨0, fun _ _ => ⟨false, Value.nil⟩⟩

def dfltString : ObjString := ⟨[], 0, false⟩

/-- Model of `push` (vm.c): write the value at the cursor and advance it. -/
def push (s : VM) (v : Value) : VM :=
  { s with stack := s.stack ++ [v] }

/-- Model of `pop` (vm.c): retreat the cursor and return the previous top. -/
def pop (s : VM) : Value × VM :=
  (s.stack.getLast?.getD Value.nil, { s with stack := s.stack.dropLast })

/-- Model of `peek` (vm.c): `vm.stackTop[-1 - distance]`. -/
def peek (s : VM) (distance : Nat) : Value :=
  s.stack.getD (s.stack.length - 1 - distance) Value.nil

/-- Model of `resetStack` (vm.c): reset the value-stack cursor, the frame
count and the open-upvalue list. -/
def resetStack (s : VM) : VM :=
  { s with stack := [], frames := [], openUpvalues := [] }

/-- Model of `runtimeError` (vm.c) together with the
`return INTERPRET_RUNTIME_ERROR` that follows every call to it inside `run`:
the diagnostics are printed (recorded here as the message), the VM state is
reset, and the dispatch loop reports a runtime error. -/
def runtimeError (s : VM) (msg : String) : StepResult :=
  StepResult.err (resetStack s) msg

/-- Slot pointed at by the upvalue with the given id (`0` when the upvalue is
closed; never used in that case). -/
def slotOfU (u : List ObjUpvalue) (id : Nat) : Nat :=
  match (u.getD id dfltUpvalue).location with
  | Loc.slot i => i
  | Loc.ownClosed => 0

/-- Whether an upvalue is in the OPEN state. -/
def isOpenUv (uv : ObjUpvalue) : Bool :=
  match uv.location with
  | Loc.slot _ => true
  | Loc.ownClosed => false

/-- Model of the body of `captureUpvalue` (vm.c) on the upvalue heap `u` and
the open list `opens`: walk the open list while `upvalue->location > localSlot`;
return the existing upvalue when one points exactly at `localSlot`; otherwise
create a fresh upvalue (`newUpvalue`: location `localSlot`, closed `nil`), link it
at the current position, and return it.  Comparing a closed upvalue's
`location` with a stack address is unspecified in C and unreachable under the
open-list invariant; the model stops the walk there. -/
def captureUpvalueAux (u : List ObjUpvalue) (opens : List Nat) (localSlot : Nat) :
    Nat × List ObjUpvalue × List Nat :=
  match opens with
  | [] => (u.length, u ++ [⟨Loc.slot localSlot, Value.nil⟩], [u.length])
  | id :: rest =>
    match (u.getD id dfltUpvalue).location with
    | Loc.slot i =>
      if localSlot < i then
        let r := captureUpvalueAux u rest localSlot
        (r.1, r.2.1, id :: r.2.2)
      else if i = localSlot then (id, u, id :: rest)
      else (u.length, u ++ [⟨Loc.slot localSlot, Value.nil⟩], u.length :: id :: rest)
    | Loc.ownClosed => (u.length, u ++ [⟨Loc.slot localSlot, Value.nil⟩], u.length :: id :: rest)

/-- Model of `captureUpvalue` (vm.c) acting on the VM state. -/
def captureUpvalue (s : VM) (localSlot : Nat) : Nat × VM :=
  let r := captureUpvalueAux s.heapUpvalues s.openUpvalues localSlot
  (r.1, { s with heapUpvalues := r.2.1, openUpvalues := r.2.2 })

/-- Model of the loop of `closeUpvalues` (vm.c): while the head of the open
list has `location >= last`, copy `*location` into the upvalue's `closed`
field, retarget `location` to that field, and unlink the upvalue. -/
def closeUpvaluesAux (stack : List Value) (u : List ObjUpvalue) (opens : List Nat)
    (last : Nat) : List ObjUpvalue × List Nat :=
  match opens with
  | [] => (u, [])
  | id :: rest =>
    match (u.getD id dfltUpvalue).location with
    | Loc.slot i =>
      if last ≤ i then
        closeUpvaluesAux stack (u.set id ⟨Loc.ownClosed, stack.getD i Value.nil⟩) rest last
      else (u, id :: rest)
    | Loc.ownClosed => (u, id :: rest)

/-- Model of `closeUpvalues` (vm.c) acting on the VM state. -/
def closeUpvalues (s : VM) (last : Nat) : VM :=
  let r := closeUpvaluesAux s.stack s.heapUpvalues s.openUpvalues last
  { s with heapUpvalues := r.1, openUpvalues := r.2 }

/-- Read through an upvalue's `location` pointer, as `OP_GET_UPVALUE` does
with `*frame->closure->upvalues[slot]->location`. -/
def upvalRead (s : VM) (id : Nat) : Value :=
  match (s.heapUpvalues.getD id dfltUpvalue).location with
  | Loc.slot i => s.stack.getD i Value.nil
  | Loc.ownClosed => (s.heapUpvalues.getD id dfltUpvalue).closed

/-- Write through an upvalue's `location` pointer, as `OP_SET_UPVALUE` does
with `*frame->closure->upvalues[slot]->location = peek(0)`. -/
def upvalWrite (s : VM) (id : Nat) (v : Value) : VM :=
  match (s.heapUpvalues.getD id dfltUpvalue).location with
  | Loc.slot i => { s with stack := s.stack.set i v }
  | Loc.ownClosed => { s with heapUpvalues := s.heapUpvalues.set id ⟨Loc.ownClosed, v⟩ }

/-- The open-upvalue invariant maintained by the VM: every upvalue on the
open list is OPEN and points at a live stack slot, every OPEN upvalue is on
the open list (so each upvalue is in exactly one of the two states, with the
CLOSED ones off the list and targeting their own `closed` field), and the
open list is strictly descending by stack address. -/
def OpenListInv (s : VM) : Prop :=
  (∀ id ∈ s.openUpvalues,
    isOpenUv (s.heapUpvalues.getD id dfltUpvalue) = true ∧
    slotOfU s.heapUpvalues id < s.stack.length) ∧
  (∀ id, id < s.heapUpvalues.length →
    isOpenUv (s.heapUpvalues.getD id dfltUpvalue) = true → id ∈ s.openUpvalues) ∧
  List.Pairwise (fun a b => slotOfU s.heapUpvalues b < slotOfU s.heapUpvalues a)
    s.openUpvalues

/-- Modelled from the spec: `GROW_CAPACITY` lives in memory.h, which is not
under src; §3 gives the growth policy "double with a small floor, e.g.
max(8, 2·old)". -/
def growCapacity (c : Nat) : Nat :=
  if c < 8 then 8 else 2 * c

/-- Model of `appendToList` (object.c): grow the backing array when full
(fresh slots are uninitialized memory, modelled as `nil`), write the value at
`items[count]`, and increment the count. -/
def appendToList (l : ObjList) (v : Value) : ObjList :=
  let items :=
    if l.items.length < l.count + 1 then
      l.items ++ List.replicate (growCapacity l.items.length - l.items.length) Value.nil
    else l.items
  { items := items.set l.count v, count := l.count + 1 }

/-- Model of `storeToList` (object.c); the index is assumed valid. -/
def storeToList (l : ObjList) (index : Int) (v : Value) : ObjList :=
  { l with items := l.items.set index.toNat v }

/-- Model of `indexFromList` (object.c); the index is assumed valid. -/
def indexFromList (l : ObjList) (index : Int) : Value :=
  l.items.getD index.toNat Value.nil

/-- Model of the shifting loop of `deleteFromList` (object.c):
`for (i = index; i < count - 1; i++) items[i] = items[i + 1];`. -/
def shiftDown (items : List Value) (i count : Nat) : List Value :=
  if i + 1 < count then
    shiftDown (items.set i (items.getD (i + 1) Value.nil)) (i + 1) count
  else items
termination_by count - i

/-- Model of `deleteFromList` (object.c): shift the tail elements down, write
`NIL_VAL` into the vacated final slot, and decrement the count. -/
def deleteFromList (l : ObjList) (index : Int) : ObjList :=
  { items := (shiftDown l.items index.toNat l.count).set (l.count - 1) Value.nil,
    count := l.count - 1 }

/-- Model of `isValidListIndex` (object.c). -/
def isValidListIndex (l : ObjList) (index : Int) : Bool :=
  if index < 0 || index > (l.count : Int) - 1 then false else true

/-- Modelled from the spec: `tableGet` lives in table.c, which is not under
src; §4.3 describes the globals table as a map keyed by interned string. -/
def tableGet (t : List (String × Value)) (key : String) : Option Value :=
  match t with
  | [] => none
  | (k, v) :: rest => if k = key then some v else tableGet rest key

/-- Modelled from the spec: `tableSet` lives in table.c, which is not under
src; §4.3 specifies that it inserts or updates and "returns a boolean
distinguishing insert-of-new-key from update-of-existing-key". -/
def tableSet (t : List (String × Value)) (key : String) (v : Value) :
    Bool × List (String × Value) :=
  match t with
  | [] => (true, [(key, v)])
  | (k, w) :: rest =>
    if k = key then (false, (k, v) :: rest)
    else
      let r := tableSet rest key v
      (r.1, (k, w) :: r.2)

/-- Modelled from the spec: `tableDelete` lives in table.c, which is not under
src; it removes the binding of the key (tombstones are invisible at the map
level). -/
def tableDelete (t : List (String × Value)) (key : String) : List (String × Value) :=
  match t with
  | [] => []
  | (k, w) :: rest => if k = key then rest else (k, w) :: tableDelete rest key

/-- Model of `call` (vm.c): check the arity, check the frame-stack depth, and
push a frame with `ip = chunk.code` (offset `0`) and
`slots = stackTop - argCount - 1`. -/
def call (s : VM) (closureId : Nat) (argCount : Nat) : StepResult :=
  let cl := s.heapClosures.getD closureId dfltClosure
  let fn := s.heapFunctions.getD cl.function dfltFunction
  if argCount ≠ fn.arity then
    runtimeError s
      ("Expected " ++ toString fn.arity ++ " arguments but got " ++ toString argCount ++ ".")
  else if s.frames.length = FRAMES_MAX then
    runtimeError s ("Stack overflow.")
  else
    StepResult.ok
      { s with frames := ⟨closureId, 0, s.stack.length - argCount - 1⟩ :: s.frames }

/-- Model of `callValue` (vm.c). -/
def callValue (s : VM) (callee : Value) (argCount : Nat) : StepResult :=
  match callee with
  | Value.closureRef id => call s id argCount
  | Value.nativeRef id =>
    let native := s.heapNatives.getD id dfltNative
    if native.arity ≠ -1 ∧ native.arity ≠ (argCount : Int) then
      runtimeError s
        ("Expected " ++ toString native.arity ++ " arguments but got "
          ++ toString argCount ++ ".")
    else
      let result := native.function argCount (s.stack.drop (s.stack.length - argCount))
      if result.isError then
        runtimeError s ("Native error: " ++ getStr result.result)
      else
        StepResult.ok
          { s with stack := s.stack.take (s.stack.length - (argCount + 1)) ++ [result.result] }
  | Value.nil => runtimeError s ("Can only call functions and classes.")
  | Value.bool _ => runtimeError s ("Can only call functions and classes.")
  | Value.num _ => runtimeError s ("Can only call functions and classes.")
  | _ => runtimeError s ("Can only call functions and classes.")

/-- Model of the `OP_CALL` case of `run` (vm.c): dispatch `callValue` on
`peek(argCount)`.  Saving the caller's `ip` before the call and reloading
`frame`/`ip` afterwards is bookkeeping on the `frames` list, whose entries
carry their own `ip`. -/
def opCall (s : VM) (argCount : Nat) : StepResult :=
  callValue s (peek s argCount) argCount

/-- The arity of the function of the closure with the given id (the
`closure->function->arity` chain of `call`). -/
def closureArity (s : VM) (cid : Nat) : Nat :=
  (s.heapFunctions.getD (s.heapClosures.getD cid dfltClosure).function dfltFunction).arity

/-- The native object with the given id. -/
def nativeOf (s : VM) (nid : Nat) : ObjNative :=
  s.heapNatives.getD nid dfltNative

/-- The argument window `vm.stackTop - argCount` of a native call. -/
def nativeArgs (s : VM) (argCount : Nat) : List Value :=
  s.stack.drop (s.stack.length - argCount)

/-- Model of the `OP_SET_GLOBAL` case of `run` (vm.c): tentatively set, and
when the key was new, roll back with a delete and raise
`Undefined variable '<name>'.`; the value stays on the stack. -/
def opSetGlobal (s : VM) (name : String) : StepResult :=
  let r := tableSet s.globals name (peek s 0)
  if r.1 then
    runtimeError { s with globals := tableDelete r.2 name }
      ("Undefined variable \x27" ++ name ++ "\x27.")
  else
    StepResult.ok { s with globals := r.2 }

/-- Model of the `OP_RETURN` case of `run` (vm.c).  The branch for an empty
frame list is unreachable: `run` only executes with at least one active
frame. -/
def opReturn (s : VM) : StepResult :=
  match s.frames with
  | [] => StepResult.err s ("invalid frame state")
  | frame :: restFrames =>
    let r := pop s
    let s1 := closeUpvalues r.2 frame.slots
    match restFrames with
    | [] => StepResult.finished (pop { s1 with frames := [] }).2
    | _ :: _ =>
      StepResult.ok
        { s1 with stack := s1.stack.take frame.slots ++ [r.1], frames := restFrames }

/-- Model of `newList` (object.c): a fresh empty list object. -/
def newList (s : VM) : Nat × VM :=
  (s.heapLists.length, { s with heapLists := s.heapLists ++ [dfltList] })

/-- `appendToList` acting on the list with the given id in the VM heap. -/
def vmAppend (s : VM) (lid : Nat) (v : Value) : VM :=
  { s with heapLists := s.heapLists.set lid (appendToList (s.heapLists.getD lid dfltList) v) }

/-- The append loop of `OP_BUILD_LIST`:
`for (i = itemCount; i > 0; i--) appendToList(list, peek(i));`. -/
def buildListLoop (s : VM) (lid : Nat) : Nat → VM
  | 0 => s
  | k + 1 => buildListLoop (vmAppend s lid (peek s (k + 1))) lid k

/-- The sequence of values the `OP_BUILD_LIST` loop appends:
`peek(k), peek(k-1), ..., peek(1)`. -/
def peekSeq (s : VM) : Nat → List Value
  | 0 => []
  | k + 1 => peek s (k + 1) :: peekSeq s k

/-- Model of the `OP_BUILD_LIST` case of `run` (vm.c): create a list, push it
(so the collector keeps it alive), append `peek(itemCount) .. peek(1)`, pop
the protective reference, pop the items, and push the list. -/
def opBuildList (s : VM) (itemCount : Nat) : VM :=
  let r := newList s
  let s1 := push r.2 (Value.listRef r.1)
  let s2 := buildListLoop s1 r.1 itemCount
  let s3 := (pop s2).2
  let s4 := { s3 with stack := s3.stack.take (s3.stack.length - itemCount) }
  push s4 (Value.listRef r.1)

/-- The first two steps of `OP_BUILD_LIST`: create the list object and push
the protective reference (`newList` followed by `push`). -/
def buildStart (s : VM) : VM :=
  push { s with heapLists := s.heapLists ++ [dfltList] }
    (Value.listRef s.heapLists.length)

/-- Model of the `OP_INDEX_SUBSCR` case of `run` (vm.c). -/
def opIndexSubscr (s : VM) : StepResult :=
  let r1 := pop s
  let r2 := pop r1.2
  match r2.1 with
  | Value.listRef lid =>
    match r1.1 with
    | Value.num ix =>
      let l := r2.2.heapLists.getD lid dfltList
      if isValidListIndex l ix then
        StepResult.ok (push r2.2 (indexFromList l ix))
      else
        runtimeError r2.2 ("List index out of range.")
    | _ => runtimeError r2.2 ("List index is not a number.")
  | _ => runtimeError r2.2 ("Invalid type to index into.")

/-- Model of the `OP_STORE_SUBSCR` case of `run` (vm.c). -/
def opStoreSubscr (s : VM) : StepResult :=
  let r0 := pop s
  let r1 := pop r0.2
  let r2 := pop r1.2
  match r2.1 with
  | Value.listRef lid =>
    match r1.1 with
    | Value.num ix =>
      let l := r2.2.heapLists.getD lid dfltList
      if isValidListIndex l ix then
        StepResult.ok
          (push { r2.2 with heapLists := r2.2.heapLists.set lid (storeToList l ix r0.1) } r0.1)
      else
        runtimeError r2.2 ("Invalid list index.")
    | _ => runtimeError r2.2 ("List index is not a number.")
  | _ => runtimeError r2.2 ("Cannot store value in a non-list.")

/-- Model of `deleteNative` (vm.c), acting on the list heap. -/
def deleteNative (s : VM) (argCount : Nat) (args : List Value) : NativeResult × VM :=
  match argCount, args with
  | 2, Value.listRef lid :: Value.num ix :: _ =>
    let l := s.heapLists.getD lid dfltList
    if isValidListIndex l ix then
      (⟨false, Value.nil⟩, { s with heapLists := s.heapLists.set lid (deleteFromList l ix) })
    else (⟨true, Value.str ("Index out of bounds")⟩, s)
  | _, _ => (⟨true, Value.str ("delete() takes a list and an index as arguments")⟩, s)

/-- Model of `hashString` (object.c): octet-wise FNV-1a with offset basis
`2166136261` and prime `16777619` over the bytes (the C code casts each
character to `uint8_t`), in 32-bit arithmetic. -/
def hashString (key : List Nat) : Nat :=
  key.foldl (fun h b => ((h ^^^ (b % 256)) * 16777619) % 4294967296) 2166136261

/-- The string heap together with the intern table `vm.strings` (modelled as
the list of ids of the interned strings). -/
structure InternState where
  heap : List ObjString
  table : List Nat
deriving DecidableEq, Repr

/-- Modelled from the spec: `tableFindString` lives in table.c, which is not
under src; §4.3 specifies that the intern lookup "must compare hash, length,
and byte content". -/
def tableFindString (st : InternState) (chars : List Nat) (h : Nat) : Option Nat :=
  st.table.find? (fun id =>
    let s := st.heap.getD id dfltString
    s.hash == h && s.chars == chars)

/-- Model of `makeString` (object.c): query the intern table and return the
canonical string on a hit; on a miss allocate a new string with the characters
stored inline and insert it into the intern table (`tableSet` on a fresh
string key appends it). -/
def makeString (st : InternState) (chars : List Nat) (h : Nat) (ownsChars : Bool) :
    Nat × InternState :=
  match tableFindString st chars h with
  | some id => (id, st)
  | none =>
    (st.heap.length,
      ⟨st.heap ++ [⟨chars, h, ownsChars⟩], st.table ++ [st.heap.length]⟩)

/-- Model of `copyString` (object.c): hash, then intern, owning the bytes. -/
def copyString (st : InternState) (chars : List Nat) : Nat × InternState :=
  makeString st chars (hashString chars) true

/-- Model of `takeString` (object.c): hash, then intern, owning the bytes; the
caller's buffer is then released, which has no observable effect here. -/
def takeString (st : InternState) (chars : List Nat) : Nat × InternState :=
  makeString st chars (hashString chars) true

/-- The intern-canonicity invariant of the string heap and of the intern
table `vm.strings`: every live string is interned, every table entry is live,
contents are injective over live strings, every cached hash is the FNV-1a
hash of the content, and every string owns its bytes. -/
def InternInv (st : InternState) : Prop :=
  (∀ id, id < st.heap.length → id ∈ st.table) ∧
  (∀ id, id ∈ st.table → id < st.heap.length) ∧
  (∀ i j, i < st.heap.length → j < st.heap.length →
    (st.heap.getD i dfltString).chars = (st.heap.getD j dfltString).chars → i = j) ∧
  (∀ id, id < st.heap.length →
    (st.heap.getD id dfltString).hash
      = hashString (st.heap.getD id dfltString).chars) ∧
  (∀ id, id < st.heap.length → (st.heap.getD id dfltString).ownsChars = true)

/-! ## Concrete example states (for witnesses) -/

def exIntern : InternState := ⟨[], []⟩

/-- An empty VM state. -/
def exVM0 : VM :=
  { stack := [], frames := [], globals := [], openUpvalues := [],
    heapUpvalues := [], heapClosures := [], heapFunctions := [], heapNatives := [],
    heapLists := [] }

def exList9 : ObjList := ⟨[Value.num 1, Value.num 2], 2⟩

def exVM9 : VM := { exVM0 with heapLists := [exList9] }

def exVM10 : VM :=
  { exVM0 with stack := [Value.listRef 0, Value.num (-1)], heapLists := [exList9] }

def exVM6 : VM :=
  { exVM0 with
      stack := [Value.num 3], frames := [⟨0, 0, 0⟩], openUpvalues := [0],
      heapUpvalues := [⟨Loc.slot 0, Value.nil⟩] }

def exVM4 : VM :=
  { exVM0 with
      stack := [Value.closureRef 0, Value.num 1, Value.num 2],
      heapClosures := [⟨0, []⟩], heapFunctions := [⟨2⟩] }

def exVM4m : VM :=
  { exVM0 with
      stack := [Value.closureRef 0, Value.num 1],
      heapClosures := [⟨0, []⟩], heapFunctions := [⟨2⟩] }

def exVM4o : VM := { exVM4 with frames := List.replicate 64 ⟨0, 0, 0⟩ }

def exVM4n : VM :=
  { exVM0 with
      stack := [Value.nativeRef 0, Value.num 7],
      heapNatives := [⟨1, fun _ args => ⟨false, args.getD 0 Value.nil⟩⟩] }

def exVM4e : VM :=
  { exVM0 with
      stack := [Value.nativeRef 0],
      heapNatives := [⟨-1, fun _ _ => ⟨true, Value.str ("boom")⟩⟩] }

def exVM7 : VM :=
  { exVM0 with stack := [Value.num 10, Value.num 20, Value.num 30] }

def exVM1 : VM :=
  { exVM0 with
      stack := [Value.num 5, Value.num 7],
      openUpvalues := [1, 0],
      heapUpvalues := [⟨Loc.slot 0, Value.nil⟩, ⟨Loc.slot 1, Value.nil⟩] }

def exVM2 : VM :=
  { exVM0 with
      stack := [Value.num 1, Value.num 2],
      openUpvalues := [0],
      heapUpvalues := [⟨Loc.slot 1, Value.nil⟩] }

def exVM3 : VM :=
  { exVM0 with
      stack := [Value.closureRef 0, Value.num 4, Value.num 9],
      frames := [⟨1, 5, 1⟩, ⟨0, 2, 0⟩],
      openUpvalues := [0],
      heapUpvalues := [⟨Loc.slot 1, Value.nil⟩] }

def exVM5 : VM := { exVM0 with stack := [Value.num 3] }

def exVM5b : VM :=
  { exVM0 with stack := [Value.num 3], globals := [("x", Value.num 1)] }

/-! ## List access helper lemmas -/

theorem getD_set_ne {α : Type} (l : List α) (i j : Nat) (a d : α) (h : i ≠ j) :
    (l.set i a).getD j d = l.getD j d := by
  induction l generalizing i j with
  | nil => simp
  | cons x t ih =>
    cases i with
    | zero =>
      cases j with
      | zero => exact absurd rfl h
      | succ j' => simp
    | succ i' =>
      cases j with
      | zero => simp
      | succ j' => simpa using ih i' j' (by omega)

theorem getD_set_self {α : Type} (l : List α) (i : Nat) (a d : α) (h : i < l.length) :
    (l.set i a).getD i d = a := by
  induction l generalizing i with
  | nil => simp at h
  | cons x t ih =>
    cases i with
    | zero => simp
    | succ i' => simpa using ih i' (by simpa using h)

theorem take_succ_set {α : Type} (l : List α) (i : Nat) (a : α) (h : i < l.length) :
    (l.set i a).take (i + 1) = l.take i ++ [a] := by
  induction l generalizing i with
  | nil => simp at h
  | cons x t ih =>
    cases i with
    | zero => simp
    | succ i' =>
      simp only [List.set_cons_succ, List.take_succ_cons]
      rw [ih i' (by simpa using h)]
      simp

theorem take_set_of_le {α : Type} (l : List α) (i j : Nat) (a : α) (h : j ≤ i) :
    (l.set i a).take j = l.take j := by
  induction l generalizing i j with
  | nil => simp
  | cons x t ih =>
    cases j with
    | zero => simp
    | succ j' =>
      cases i with
      | zero => omega
      | succ i' =>
        simp only [List.set_cons_succ, List.take_succ_cons]
        rw [ih i' j' (by omega)]

/-! ## Claims C9 and C10: list deletion and index validity -/

theorem isValidListIndex_iff (l : ObjList) (ix : Int) :
    isValidListIndex l ix = true ↔ 0 ≤ ix ∧ ix ≤ (l.count : Int) - 1 := by
  simp only [isValidListIndex]
  split
  · rename_i h
    simp only [Bool.or_eq_true, decide_eq_true_eq] at h
    simp only [Bool.false_eq_true, false_iff]
    omega
  · rename_i h
    simp only [Bool.or_eq_true, decide_eq_true_eq, not_or] at h
    simp only [true_iff]
    omega

theorem shiftDown_length (items : List Value) (i count : Nat) :
    (shiftDown items i count).length = items.length := by
  induction items, i, count using shiftDown.induct with
  | case1 items i count h ih =>
    rw [shiftDown, if_pos h, ih, List.length_set]
  | case2 items i count h =>
    rw [shiftDown, if_neg h]

theorem shiftDown_getD (items : List Value) (i count : Nat) (j : Nat)
    (hc : count ≤ items.length) :
    (shiftDown items i count).getD j Value.nil =
      if i ≤ j ∧ j + 1 < count then items.getD (j + 1) Value.nil
      else items.getD j Value.nil := by
  induction items, i, count using shiftDown.induct with
  | case1 items i count h ih =>
    rw [shiftDown, if_pos h, ih (by simpa using hc)]
    rcases Nat.lt_trichotomy j i with hj | hj | hj
    · rw [if_neg (by omega), if_neg (by omega), getD_set_ne _ _ _ _ _ (by omega)]
    · subst hj
      rw [if_neg (by omega), if_pos (by omega),
        getD_set_self _ _ _ _ (by omega)]
    · by_cases hjc : j + 1 < count
      · rw [if_pos (by omega), if_pos (by omega), getD_set_ne _ _ _ _ _ (by omega)]
      · rw [if_neg (by omega), if_neg (by omega), getD_set_ne _ _ _ _ _ (by omega)]
  | case2 items i count h =>
    rw [shiftDown, if_neg h, if_neg (by omega)]

/-- C9: deleting at a valid index `i` shifts every element above `i` down by
one, writes `nil` into the vacated final slot, and decrements the count; the
`delete` native returns `nil` on success (updating the list in the heap) and
reports `Index out of bounds` on an out-of-range index, leaving the heap
untouched. -/
theorem deleteFromList_claim :
    (∀ (l : ObjList) (ix : Int), l.count ≤ l.items.length →
      isValidListIndex l ix = true →
      ((deleteFromList l ix).count = l.count - 1 ∧
       (deleteFromList l ix).items.length = l.items.length ∧
       (∀ j : Nat, j < ix.toNat →
         (deleteFromList l ix).items.getD j Value.nil = l.items.getD j Value.nil) ∧
       (∀ j : Nat, ix.toNat ≤ j → j + 1 < l.count →
         (deleteFromList l ix).items.getD j Value.nil = l.items.getD (j + 1) Value.nil) ∧
       (deleteFromList l ix).items.getD (l.count - 1) Value.nil = Value.nil)) ∧
    (∀ (s : VM) (lid : Nat) (ix : Int),
      isValidListIndex (s.heapLists.getD lid dfltList) ix = true →
        deleteNative s 2 [Value.listRef lid, Value.num ix] =
          (⟨false, Value.nil⟩,
            { s with heapLists :=
                s.heapLists.set lid (deleteFromList (s.heapLists.getD lid dfltList) ix) })) ∧
    (∀ (s : VM) (lid : Nat) (ix : Int),
      isValidListIndex (s.heapLists.getD lid dfltList) ix = false →
        deleteNative s 2 [Value.listRef lid, Value.num ix] =
          (⟨true, Value.str ("Index out of bounds")⟩, s)) := by
  refine ⟨?_, ?_, ?_⟩
  · intro l ix hc hv
    rw [isValidListIndex_iff] at hv
    have hcount : 1 ≤ l.count := by omega
    have hlen : (shiftDown l.items ix.toNat l.count).length = l.items.length :=
      shiftDown_length _ _ _
    refine ⟨rfl, ?_, ?_, ?_, ?_⟩
    · show ((shiftDown l.items ix.toNat l.count).set (l.count - 1) Value.nil).length
        = l.items.length
      rw [List.length_set, shiftDown_length]
    · intro j hj
      simp only [deleteFromList]
      rw [getD_set_ne _ _ _ _ _ (by omega), shiftDown_getD _ _ _ _ hc,
        if_neg (by omega)]
    · intro j hj hjc
      simp only [deleteFromList]
      rw [getD_set_ne _ _ _ _ _ (by omega), shiftDown_getD _ _ _ _ hc,
        if_pos (by omega)]
    · simp only [deleteFromList]
      rw [getD_set_self _ _ _ _ (by omega)]
  · intro s lid ix hv
    simp only [deleteNative]
    rw [if_pos hv]
  · intro s lid ix hv
    simp only [deleteNative]
    rw [if_neg (by rw [hv]; exact Bool.false_ne_true)]

theorem opIndexSubscr_ok (s : VM) (pre : List Value) (lid : Nat) (ix : Int)
    (hstack : s.stack = pre ++ [Value.listRef lid, Value.num ix])
    (hv : isValidListIndex (s.heapLists.getD lid dfltList) ix = true) :
    opIndexSubscr s = StepResult.ok
      { s with stack := pre ++ [indexFromList (s.heapLists.getD lid dfltList) ix] } := by
  have h2 : s.stack = (pre ++ [Value.listRef lid]) ++ [Value.num ix] := by
    simp [hstack]
  simp only [opIndexSubscr, pop, h2, List.getLast?_concat, List.dropLast_concat,
    Option.getD_some]
  rw [if_pos hv]
  rfl

/-- C10: an index is accepted by the list operations exactly when
`0 ≤ i ≤ count - 1`; in particular every negative index and every index into
an empty list is rejected by `OP_INDEX_SUBSCR`, `OP_STORE_SUBSCR` and the
`delete` native with an out-of-range runtime error, and the error leaves the
list heap (contents and counts) unchanged. -/
theorem listIndexValidity_claim :
    (∀ (l : ObjList) (ix : Int),
      isValidListIndex l ix = true ↔ 0 ≤ ix ∧ ix ≤ (l.count : Int) - 1) ∧
    (∀ (l : ObjList) (ix : Int), ix < 0 ∨ l.count = 0 → isValidListIndex l ix = false) ∧
    (∀ (s : VM) (pre : List Value) (lid : Nat) (ix : Int),
      s.stack = pre ++ [Value.listRef lid, Value.num ix] →
      isValidListIndex (s.heapLists.getD lid dfltList) ix = false →
        opIndexSubscr s = StepResult.err (resetStack s) ("List index out of range.") ∧
        (resetStack s).heapLists = s.heapLists) ∧
    (∀ (s : VM) (pre : List Value) (lid : Nat) (ix : Int),
      s.stack = pre ++ [Value.listRef lid, Value.num ix] →
      isValidListIndex (s.heapLists.getD lid dfltList) ix = true →
        opIndexSubscr s =
          StepResult.ok { s with stack :=
            pre ++ [indexFromList (s.heapLists.getD lid dfltList) ix] }) ∧
    (∀ (s : VM) (pre : List Value) (lid : Nat) (ix : Int) (item : Value),
      s.stack = pre ++ [Value.listRef lid, Value.num ix, item] →
      isValidListIndex (s.heapLists.getD lid dfltList) ix = false →
        opStoreSubscr s = StepResult.err (resetStack s) ("Invalid list index.") ∧
        (resetStack s).heapLists = s.heapLists) ∧
    (∀ (s : VM) (lid : Nat) (ix : Int),
      isValidListIndex (s.heapLists.getD lid dfltList) ix = false →
        deleteNative s 2 [Value.listRef lid, Value.num ix] =
          (⟨true, Value.str ("Index out of bounds")⟩, s)) := by
  refine ⟨isValidListIndex_iff, ?_, ?_, ?_, ?_, ?_⟩
  · intro l ix h
    cases hres : isValidListIndex l ix
    · rfl
    · rw [isValidListIndex_iff] at hres
      omega
  · intro s pre lid ix hstack hv
    have h2 : s.stack = (pre ++ [Value.listRef lid]) ++ [Value.num ix] := by
      simp [hstack]
    constructor
    · simp only [opIndexSubscr, pop, h2, List.getLast?_concat, List.dropLast_concat,
        Option.getD_some]
      rw [if_neg (by rw [hv]; exact Bool.false_ne_true)]
      rfl
    · rfl
  · intro s pre lid ix hstack hv
    exact opIndexSubscr_ok s pre lid ix hstack hv
  · intro s pre lid ix item hstack hv
    have h2 : s.stack = ((pre ++ [Value.listRef lid]) ++ [Value.num ix]) ++ [item] := by
      simp [hstack]
    constructor
    · simp only [opStoreSubscr, pop, h2, List.getLast?_concat, List.dropLast_concat,
        Option.getD_some]
      rw [if_neg (by rw [hv]; exact Bool.false_ne_true)]
      rfl
    · rfl
  · intro s lid ix hv
    simp only [deleteNative]
    rw [if_neg (by rw [hv]; exact Bool.false_ne_true)]

/-- Witness for the deletion claim at a concrete two-element list. -/
theorem deleteFromList_claim_witness :
    (deleteFromList exList9 0).count = 1 ∧
    (deleteFromList exList9 0).items.getD 0 Value.nil = Value.num 2 ∧
    (deleteFromList exList9 0).items.getD 1 Value.nil = Value.nil ∧
    deleteNative exVM9 2 [Value.listRef 0, Value.num 0] =
      (⟨false, Value.nil⟩,
        { exVM9 with heapLists :=
            exVM9.heapLists.set 0 (deleteFromList (exVM9.heapLists.getD 0 dfltList) 0) }) ∧
    deleteNative exVM9 2 [Value.listRef 0, Value.num 5] =
      (⟨true, Value.str ("Index out of bounds")⟩, exVM9) := by
  refine ⟨(deleteFromList_claim.1 exList9 0 (by decide) (by decide)).1, ?_, ?_, ?_, ?_⟩
  · exact ((deleteFromList_claim.1 exList9 0 (by decide) (by decide)).2.2.2.1 0
      (by decide) (by decide)).trans (by decide)
  · exact (deleteFromList_claim.1 exList9 0 (by decide) (by decide)).2.2.2.2
  · exact deleteFromList_claim.2.1 exVM9 0 0 (by decide)
  · exact deleteFromList_claim.2.2 exVM9 0 5 (by decide)

/-- Witness for the index-validity claim: a negative index is rejected by
`OP_INDEX_SUBSCR`, and an index into an empty list is rejected by the `delete`
native, both leaving the list heap unchanged. -/
theorem listIndexValidity_claim_witness :
    isValidListIndex exList9 (-1) = false ∧
    (opIndexSubscr exVM10 = StepResult.err (resetStack exVM10) ("List index out of range.") ∧
      (resetStack exVM10).heapLists = exVM10.heapLists) ∧
    deleteNative { exVM0 with heapLists := [dfltList] } 2 [Value.listRef 0, Value.num 0] =
      (⟨true, Value.str ("Index out of bounds")⟩, { exVM0 with heapLists := [dfltList] }) := by
  refine ⟨?_, ?_, ?_⟩
  · exact listIndexValidity_claim.2.1 exList9 (-1) (Or.inl (by decide))
  · exact listIndexValidity_claim.2.2.1 exVM10 [] 0 (-1) rfl (by decide)
  · exact listIndexValidity_claim.2.2.2.2.2 { exVM0 with heapLists := [dfltList] } 0 0
      (by decide)

/-! ## Table lemmas (for the globals table, modelled from §4.3) -/

theorem tableSet_isNew (t : List (String × Value)) (k : String) (v : Value) :
    (tableSet t k v).1 = true ↔ tableGet t k = none := by
  induction t with
  | nil => simp [tableSet, tableGet]
  | cons p rest ih =>
    obtain ⟨k0, v0⟩ := p
    by_cases h : k0 = k
    · simp [tableSet, tableGet, h]
    · simp [tableSet, tableGet, h, ih]

theorem tableDelete_tableSet_fresh (t : List (String × Value)) (k : String) (v : Value)
    (h : tableGet t k = none) : tableDelete (tableSet t k v).2 k = t := by
  induction t with
  | nil => simp [tableSet, tableDelete]
  | cons p rest ih =>
    obtain ⟨k0, v0⟩ := p
    by_cases hk : k0 = k
    · rw [tableGet, if_pos hk] at h
      exact Option.noConfusion h
    · rw [tableGet, if_neg hk] at h
      simp only [tableSet, if_neg hk, tableDelete]
      rw [ih h]

theorem tableGet_tableSet_self (t : List (String × Value)) (k : String) (v : Value) :
    tableGet (tableSet t k v).2 k = some v := by
  induction t with
  | nil => simp [tableSet, tableGet]
  | cons p rest ih =>
    obtain ⟨k0, v0⟩ := p
    by_cases h : k0 = k
    · simp [tableSet, tableGet, h]
    · simp [tableSet, tableGet, h, ih]

theorem tableGet_tableSet_ne (t : List (String × Value)) (k k' : String) (v : Value)
    (h : k' ≠ k) : tableGet (tableSet t k v).2 k' = tableGet t k' := by
  induction t with
  | nil =>
    simp only [tableSet, tableGet]
    rw [if_neg (fun hh : k = k' => h hh.symm)]
  | cons p rest ih =>
    obtain ⟨k0, v0⟩ := p
    by_cases hk : k0 = k
    · subst hk
      simp only [tableSet, if_pos rfl, tableGet]
      rw [if_neg (fun hh : k0 = k' => h hh.symm),
        if_neg (fun hh : k0 = k' => h hh.symm)]
    · simp only [tableSet, if_neg hk, tableGet]
      by_cases h0 : k0 = k'
      · rw [if_pos h0, if_pos h0]
      · rw [if_neg h0, if_neg h0, ih]

/-! ## Claim C5: OP_SET_GLOBAL -/

/-- C5: `OP_SET_GLOBAL` on an undefined name raises
`Undefined variable '<name>'.` and leaves the globals table unchanged (the
tentative insert is rolled back by a delete); on a defined name it updates the
binding to the current stack top, leaves every other binding alone, and leaves
the value on the stack (the whole state apart from the globals is unchanged). -/
theorem opSetGlobal_claim :
    (∀ (s : VM) (name : String), tableGet s.globals name = none →
      opSetGlobal s name =
        StepResult.err { s with stack := [], frames := [], openUpvalues := [] }
          ("Undefined variable \x27" ++ name ++ "\x27.")) ∧
    (∀ (s : VM) (name : String) (v0 : Value), tableGet s.globals name = some v0 →
      ∃ g, opSetGlobal s name = StepResult.ok { s with globals := g } ∧
        tableGet g name = some (peek s 0) ∧
        (∀ k, k ≠ name → tableGet g k = tableGet s.globals k)) := by
  constructor
  · intro s name h
    have hnew : (tableSet s.globals name (peek s 0)).1 = true :=
      (tableSet_isNew s.globals name (peek s 0)).mpr h
    simp only [opSetGlobal]
    rw [hnew, if_pos rfl, tableDelete_tableSet_fresh s.globals name (peek s 0) h]
    rfl
  · intro s name v0 h
    have hnew : (tableSet s.globals name (peek s 0)).1 = false := by
      cases hb : (tableSet s.globals name (peek s 0)).1
      · rfl
      · rw [tableSet_isNew] at hb
        rw [hb] at h
        exact Option.noConfusion h
    refine ⟨(tableSet s.globals name (peek s 0)).2, ?_,
      tableGet_tableSet_self s.globals name (peek s 0),
      fun k hk => tableGet_tableSet_ne s.globals name k (peek s 0) hk⟩
    simp only [opSetGlobal]
    rw [hnew, if_neg Bool.false_ne_true]

/-- Witness for the `OP_SET_GLOBAL` claim: writing an undefined global errors
and leaves the (empty) table as it was; writing a defined one updates it. -/
theorem opSetGlobal_claim_witness :
    (opSetGlobal exVM5 "x" =
      StepResult.err { exVM5 with stack := [], frames := [], openUpvalues := [] }
        ("Undefined variable \x27x\x27.")) ∧
    (∃ g, opSetGlobal exVM5b "x" = StepResult.ok { exVM5b with globals := g } ∧
      tableGet g "x" = some (peek exVM5b 0) ∧
      (∀ k, k ≠ "x" → tableGet g k = tableGet exVM5b.globals k)) := by
  constructor
  · exact opSetGlobal_claim.1 exVM5 "x" rfl
  · exact opSetGlobal_claim.2 exVM5b "x" (Value.num 1) rfl

/-! ## Claim C6: runtime errors fully unwind the VM -/

theorem err_of_runtimeError {s : VM} {msg : String} {s' : VM} {m : String}
    (h : runtimeError s msg = StepResult.err s' m) :
    s'.stack = [] ∧ s'.frames = [] ∧ s'.openUpvalues = [] := by
  simp only [runtimeError, StepResult.err.injEq] at h
  rw [← h.1]
  exact ⟨rfl, rfl, rfl⟩

/-- C6: every runtime error fully unwinds the VM before `run` reports it: in
the error outcome of each error-raising handler the value stack is reset to
the base, the frame count to zero and the open-upvalue list to empty, so the
next `interpret` starts from a clean VM. -/
theorem runtimeErrorReset_claim :
    (∀ (s : VM) (msg : String) (s' : VM) (m : String),
      runtimeError s msg = StepResult.err s' m →
        s'.stack = [] ∧ s'.frames = [] ∧ s'.openUpvalues = []) ∧
    (∀ (s : VM) (callee : Value) (argCount : Nat) (s' : VM) (m : String),
      callValue s callee argCount = StepResult.err s' m →
        s'.stack = [] ∧ s'.frames = [] ∧ s'.openUpvalues = []) ∧
    (∀ (s : VM) (name : String) (s' : VM) (m : String),
      opSetGlobal s name = StepResult.err s' m →
        s'.stack = [] ∧ s'.frames = [] ∧ s'.openUpvalues = []) ∧
    (∀ (s : VM) (s' : VM) (m : String),
      opIndexSubscr s = StepResult.err s' m →
        s'.stack = [] ∧ s'.frames = [] ∧ s'.openUpvalues = []) ∧
    (∀ (s : VM) (s' : VM) (m : String),
      opStoreSubscr s = StepResult.err s' m →
        s'.stack = [] ∧ s'.frames = [] ∧ s'.openUpvalues = []) := by
  refine ⟨fun s msg s' m h => err_of_runtimeError h, ?_, ?_, ?_, ?_⟩
  · intro s callee argCount s' m h
    cases callee with
    | closureRef id =>
      simp only [callValue, call] at h
      split at h
      · exact err_of_runtimeError h
      · split at h
        · exact err_of_runtimeError h
        · exact StepResult.noConfusion h
    | nativeRef id =>
      simp only [callValue] at h
      split at h
      · exact err_of_runtimeError h
      · split at h
        · exact err_of_runtimeError h
        · exact StepResult.noConfusion h
    | nil => exact err_of_runtimeError h
    | bool b => exact err_of_runtimeError h
    | num x => exact err_of_runtimeError h
    | str c => exact err_of_runtimeError h
    | listRef id => exact err_of_runtimeError h
    | functionRef id => exact err_of_runtimeError h
  · intro s name s' m h
    simp only [opSetGlobal] at h
    split at h
    · exact err_of_runtimeError h
    · exact StepResult.noConfusion h
  · intro s s' m h
    simp only [opIndexSubscr] at h
    split at h
    · split at h
      · split at h
        · exact StepResult.noConfusion h
        · exact err_of_runtimeError h
      · exact err_of_runtimeError h
    · exact err_of_runtimeError h
  · intro s s' m h
    simp only [opStoreSubscr] at h
    split at h
    · split at h
      · split at h
        · exact StepResult.noConfusion h
        · exact err_of_runtimeError h
      · exact err_of_runtimeError h
    · exact err_of_runtimeError h

/-- Witness for the unwinding claim: calling a non-callable value on a dirty
VM yields an error state with empty stack, no frames and no open upvalues. -/
theorem runtimeErrorReset_claim_witness :
    (resetStack exVM6).stack = [] ∧ (resetStack exVM6).frames = [] ∧
      (resetStack exVM6).openUpvalues = [] :=
  runtimeErrorReset_claim.2.1 exVM6 Value.nil 0 (resetStack exVM6)
    ("Can only call functions and classes.") rfl

/-! ## Claim C4: OP_CALL dispatch -/

/-- C4: `OP_CALL` with `callee = peek(argCount)`: a non-object callee or an
object that is neither a closure nor a native raises
`Can only call functions and classes.`; a closure with the wrong argument
count raises `Expected N arguments but got M.`; a closure call at full
frame-stack depth raises `Stack overflow.`; an accepted closure call pushes a
frame with base slot `stackTop - argCount - 1` and `ip` at the start of the
bytecode; a native is invoked when its arity is `-1` or matches, on success
the stack is retracted by `argCount + 1` and the result pushed, and on native
error the message is propagated as `Native error: <msg>`. -/
theorem opCall_claim :
    (∀ (s : VM) (n : Nat), isObjValue (peek s n) = false →
      opCall s n = StepResult.err (resetStack s) ("Can only call functions and classes.")) ∧
    (∀ (s : VM) (n : Nat) (c : String), peek s n = Value.str c →
      opCall s n = StepResult.err (resetStack s) ("Can only call functions and classes.")) ∧
    (∀ (s : VM) (n : Nat) (id : Nat), peek s n = Value.listRef id →
      opCall s n = StepResult.err (resetStack s) ("Can only call functions and classes.")) ∧
    (∀ (s : VM) (n : Nat) (id : Nat), peek s n = Value.functionRef id →
      opCall s n = StepResult.err (resetStack s) ("Can only call functions and classes.")) ∧
    (∀ (s : VM) (n : Nat) (cid : Nat), peek s n = Value.closureRef cid →
      n ≠ closureArity s cid →
      opCall s n = StepResult.err (resetStack s)
        ("Expected " ++ toString (closureArity s cid) ++ " arguments but got "
          ++ toString n ++ ".")) ∧
    (∀ (s : VM) (n : Nat) (cid : Nat), peek s n = Value.closureRef cid →
      n = closureArity s cid → s.frames.length = FRAMES_MAX →
      opCall s n = StepResult.err (resetStack s) ("Stack overflow.")) ∧
    (∀ (s : VM) (n : Nat) (cid : Nat), peek s n = Value.closureRef cid →
      n = closureArity s cid → s.frames.length ≠ FRAMES_MAX →
      opCall s n = StepResult.ok
        { s with frames := ⟨cid, 0, s.stack.length - n - 1⟩ :: s.frames }) ∧
    (∀ (s : VM) (n : Nat) (nid : Nat), peek s n = Value.nativeRef nid →
      (nativeOf s nid).arity ≠ -1 → (nativeOf s nid).arity ≠ (n : Int) →
      opCall s n = StepResult.err (resetStack s)
        ("Expected " ++ toString (nativeOf s nid).arity ++ " arguments but got "
          ++ toString n ++ ".")) ∧
    (∀ (s : VM) (n : Nat) (nid : Nat), peek s n = Value.nativeRef nid →
      ((nativeOf s nid).arity = -1 ∨ (nativeOf s nid).arity = (n : Int)) →
      ((nativeOf s nid).function n (nativeArgs s n)).isError = false →
      opCall s n = StepResult.ok
        { s with stack := s.stack.take (s.stack.length - (n + 1)) ++
            [((nativeOf s nid).function n (nativeArgs s n)).result] }) ∧
    (∀ (s : VM) (n : Nat) (nid : Nat), peek s n = Value.nativeRef nid →
      ((nativeOf s nid).arity = -1 ∨ (nativeOf s nid).arity = (n : Int)) →
      ((nativeOf s nid).function n (nativeArgs s n)).isError = true →
      opCall s n = StepResult.err (resetStack s)
        ("Native error: " ++ getStr ((nativeOf s nid).function n (nativeArgs s n)).result)) := by
  refine ⟨?_, ?_, ?_, ?_, ?_, ?_, ?_, ?_, ?_, ?_⟩
  · intro s n h
    simp only [opCall]
    cases hp : peek s n with
    | nil => rfl
    | bool b => rfl
    | num x => rfl
    | str c => rw [hp] at h; simp [isObjValue] at h
    | closureRef id => rw [hp] at h; simp [isObjValue] at h
    | nativeRef id => rw [hp] at h; simp [isObjValue] at h
    | listRef id => rw [hp] at h; simp [isObjValue] at h
    | functionRef id => rw [hp] at h; simp [isObjValue] at h
  · intro s n c hp
    simp only [opCall]
    rw [hp]
    rfl
  · intro s n id hp
    simp only [opCall]
    rw [hp]
    rfl
  · intro s n id hp
    simp only [opCall]
    rw [hp]
    rfl
  · intro s n cid hp hne
    simp only [opCall]
    rw [hp]
    simp only [callValue, call]
    rw [if_pos (by simpa only [closureArity] using hne)]
    rfl
  · intro s n cid hp harity hframes
    simp only [opCall]
    rw [hp]
    simp only [callValue, call]
    rw [if_neg (fun hne => hne (by simpa only [closureArity] using harity)),
      if_pos hframes]
    rfl
  · intro s n cid hp harity hframes
    simp only [opCall]
    rw [hp]
    simp only [callValue, call]
    rw [if_neg (fun hne => hne (by simpa only [closureArity] using harity)),
      if_neg hframes]
  · intro s n nid hp h1 h2
    simp only [opCall]
    rw [hp]
    simp only [callValue]
    rw [if_pos ⟨by simpa only [nativeOf] using h1, by simpa only [nativeOf] using h2⟩]
    rfl
  · intro s n nid hp harity hok
    have harity2 : (s.heapNatives.getD nid dfltNative).arity = -1 ∨
        (s.heapNatives.getD nid dfltNative).arity = (n : Int) := by
      simpa only [nativeOf] using harity
    have hok2 : ((s.heapNatives.getD nid dfltNative).function n
        (s.stack.drop (s.stack.length - n))).isError = false := by
      simpa only [nativeOf, nativeArgs] using hok
    simp only [opCall]
    rw [hp]
    simp only [callValue]
    rw [if_neg (fun hc => harity2.elim hc.1 hc.2),
      if_neg (by rw [hok2]; exact Bool.false_ne_true)]
    rfl
  · intro s n nid hp harity herr
    have harity2 : (s.heapNatives.getD nid dfltNative).arity = -1 ∨
        (s.heapNatives.getD nid dfltNative).arity = (n : Int) := by
      simpa only [nativeOf] using harity
    have herr2 : ((s.heapNatives.getD nid dfltNative).function n
        (s.stack.drop (s.stack.length - n))).isError = true := by
      simpa only [nativeOf, nativeArgs] using herr
    simp only [opCall]
    rw [hp]
    simp only [callValue]
    rw [if_neg (fun hc => harity2.elim hc.1 hc.2), if_pos herr2]
    rfl

/-- Witness for the `OP_CALL` claim: an accepted closure call, an arity
mismatch, a frame-stack overflow, a non-callable callee, a successful native
call, and a native error, each at a concrete state. -/
theorem opCall_claim_witness :
    opCall exVM4 2 = StepResult.ok { exVM4 with frames := [⟨0, 0, 0⟩] } ∧
    opCall exVM4m 1 = StepResult.err (resetStack exVM4m)
      ("Expected 2 arguments but got 1.") ∧
    opCall exVM4o 2 = StepResult.err (resetStack exVM4o) ("Stack overflow.") ∧
    opCall exVM4 0 = StepResult.err (resetStack exVM4)
      ("Can only call functions and classes.") ∧
    opCall exVM4n 1 = StepResult.ok
      { exVM4n with stack := exVM4n.stack.take (exVM4n.stack.length - (1 + 1)) ++
          [((nativeOf exVM4n 0).function 1 (nativeArgs exVM4n 1)).result] } ∧
    opCall exVM4e 0 = StepResult.err (resetStack exVM4e) ("Native error: boom") := by
  refine ⟨?_, ?_, ?_, ?_, ?_, ?_⟩
  · exact opCall_claim.2.2.2.2.2.2.1 exVM4 2 0 rfl (by decide) (by decide)
  · exact opCall_claim.2.2.2.2.1 exVM4m 1 0 rfl (by decide)
  · exact opCall_claim.2.2.2.2.2.1 exVM4o 2 0 rfl (by decide) (by decide)
  · exact opCall_claim.1 exVM4 0 (by decide)
  · exact opCall_claim.2.2.2.2.2.2.2.2.1 exVM4n 1 0 rfl (Or.inr (by decide)) rfl
  · exact opCall_claim.2.2.2.2.2.2.2.2.2 exVM4e 0 0 rfl (Or.inl (by decide)) rfl

/-! ## Claim C7: OP_BUILD_LIST and OP_INDEX_SUBSCR -/

theorem getD_take_lt {α : Type} (l : List α) (n i : Nat) (d : α) (h : i < n) :
    (l.take n).getD i d = l.getD i d := by
  induction l generalizing n i with
  | nil => simp
  | cons x t ih =>
    cases n with
    | zero => omega
    | succ n' =>
      cases i with
      | zero => simp
      | succ i' => simpa using ih n' i' (by omega)

theorem appendToList_spec (l : ObjList) (v : Value) (hc : l.count ≤ l.items.length) :
    (appendToList l v).count = l.count + 1 ∧
    (appendToList l v).count ≤ (appendToList l v).items.length ∧
    (appendToList l v).items.take (l.count + 1) = l.items.take l.count ++ [v] := by
  simp only [appendToList]
  split
  · rename_i hgrow
    have hg : l.items.length + 1 ≤ growCapacity l.items.length := by
      simp only [growCapacity]
      split <;> omega
    have hlenbase :
        (l.items ++ List.replicate (growCapacity l.items.length - l.items.length)
          Value.nil).length = growCapacity l.items.length := by
      rw [List.length_append, List.length_replicate]
      omega
    refine ⟨trivial, ?_, ?_⟩
    · rw [List.length_set, hlenbase]
      omega
    · rw [take_succ_set _ _ _ (by omega),
        List.take_append_of_le_length (by omega)]
  · rename_i hgrow
    refine ⟨trivial, ?_, ?_⟩
    · rw [List.length_set]
      omega
    · rw [take_succ_set _ _ _ (by omega)]

theorem peekSeq_congr (s' s : VM) (h : s'.stack = s.stack) :
    ∀ k, peekSeq s' k = peekSeq s k := by
  intro k
  induction k with
  | zero => rfl
  | succ k ih => simp only [peekSeq, peek, h, ih]

theorem peekSeq_eq_drop (s : VM) (pre vs : List Value) (x : Value)
    (hstack : s.stack = pre ++ (vs ++ [x])) :
    ∀ k, k ≤ vs.length → peekSeq s k = vs.drop (vs.length - k) := by
  intro k
  induction k with
  | zero =>
    intro _
    rw [peekSeq, Nat.sub_zero, List.drop_length]
  | succ k ih =>
    intro hk
    have hidx : vs.length - (k + 1) < vs.length := by omega
    have hpeek : peek s (k + 1) = vs.getD (vs.length - (k + 1)) Value.nil := by
      simp only [peek, hstack, List.length_append, List.length_singleton]
      have h1 : pre.length + (vs.length + 1) - 1 - (k + 1)
          = pre.length + (vs.length - (k + 1)) := by omega
      rw [h1, List.getD_append_right _ _ _ _ (Nat.le_add_right _ _),
        Nat.add_sub_cancel_left, List.getD_append _ _ _ _ hidx]
    rw [peekSeq, ih (by omega), hpeek, List.getD_eq_getElem _ _ hidx]
    have h2 : vs.length - k = (vs.length - (k + 1)) + 1 := by omega
    rw [h2, ← List.drop_eq_getElem_cons hidx]

theorem buildListLoop_spec (lid : Nat) :
    ∀ (k : Nat) (s : VM), lid < s.heapLists.length →
      (s.heapLists.getD lid dfltList).count
        ≤ (s.heapLists.getD lid dfltList).items.length →
      ((buildListLoop s lid k).stack = s.stack ∧
       (buildListLoop s lid k).heapLists.length = s.heapLists.length ∧
       (∀ j, j ≠ lid →
         (buildListLoop s lid k).heapLists.getD j dfltList
           = s.heapLists.getD j dfltList) ∧
       ((buildListLoop s lid k).heapLists.getD lid dfltList).count
         = (s.heapLists.getD lid dfltList).count + k ∧
       ((buildListLoop s lid k).heapLists.getD lid dfltList).count
         ≤ ((buildListLoop s lid k).heapLists.getD lid dfltList).items.length ∧
       ((buildListLoop s lid k).heapLists.getD lid dfltList).items.take
           ((s.heapLists.getD lid dfltList).count + k)
         = (s.heapLists.getD lid dfltList).items.take
             ((s.heapLists.getD lid dfltList).count) ++ peekSeq s k) := by
  intro k
  induction k with
  | zero =>
    intro s hlid hc
    refine ⟨rfl, rfl, fun j hj => rfl, rfl, hc, ?_⟩
    have h0 : buildListLoop s lid 0 = s := rfl
    rw [h0]
    simp only [peekSeq, List.append_nil, Nat.add_zero]
  | succ k ih =>
    intro s hlid hc
    have happ := appendToList_spec (s.heapLists.getD lid dfltList) (peek s (k + 1)) hc
    have hstack' : (vmAppend s lid (peek s (k + 1))).stack = s.stack := rfl
    have hlen' : (vmAppend s lid (peek s (k + 1))).heapLists.length
        = s.heapLists.length := List.length_set _ _ _
    have hgetlid : (vmAppend s lid (peek s (k + 1))).heapLists.getD lid dfltList
        = appendToList (s.heapLists.getD lid dfltList) (peek s (k + 1)) :=
      getD_set_self _ _ _ _ hlid
    have hgetj : ∀ j, j ≠ lid →
        (vmAppend s lid (peek s (k + 1))).heapLists.getD j dfltList
          = s.heapLists.getD j dfltList := by
      intro j hj
      exact getD_set_ne _ _ _ _ _ (fun he => hj he.symm)
    obtain ⟨istack, ilen, ij, icount, ibound, itake⟩ :=
      ih (vmAppend s lid (peek s (k + 1))) (by rw [hlen']; exact hlid)
        (by rw [hgetlid]; exact happ.2.1)
    have hstep : buildListLoop s lid (k + 1)
        = buildListLoop (vmAppend s lid (peek s (k + 1))) lid k := rfl
    rw [hstep]
    refine ⟨?_, ?_, ?_, ?_, ?_, ?_⟩
    · rw [istack, hstack']
    · rw [ilen, hlen']
    · intro j hj
      rw [ij j hj, hgetj j hj]
    · rw [icount, hgetlid, happ.1]
      omega
    · exact ibound
    · rw [hgetlid, happ.1] at itake
      rw [happ.2.2] at itake
      rw [peekSeq_congr (vmAppend s lid (peek s (k + 1))) s hstack' k] at itake
      have hidx : (s.heapLists.getD lid dfltList).count + 1 + k
          = (s.heapLists.getD lid dfltList).count + (k + 1) := by omega
      rw [hidx] at itake
      rw [itake, List.append_assoc]
      rfl

/-- C7: for `N` values pushed bottom-to-top, `OP_BUILD_LIST N` pops all of
them and pushes one fresh list whose elements are `[v1, ..., vN]` in push
order, and a following `OP_INDEX_SUBSCR` with in-range index `i` (the index
pushed on top of the list) returns the `i`-th pushed value, bottom-first. -/
theorem opBuildList_claim :
    ∀ (s : VM) (pre vs : List Value) (n : Nat),
      s.stack = pre ++ vs → vs.length = n → n ≤ 255 →
      ((opBuildList s n).stack = pre ++ [Value.listRef s.heapLists.length] ∧
       (opBuildList s n).heapLists.length = s.heapLists.length + 1 ∧
       ((opBuildList s n).heapLists.getD s.heapLists.length dfltList).count = n ∧
       ((opBuildList s n).heapLists.getD s.heapLists.length dfltList).items.take n
         = vs ∧
       (∀ i : Nat, i < n →
         opIndexSubscr (push (opBuildList s n) (Value.num i)) =
           StepResult.ok
             { opBuildList s n with stack := pre ++ [vs.getD i Value.nil] })) := by
  intro s pre vs n hstack hn hbyte
  have hbs : (buildStart s).stack = (pre ++ vs) ++ [Value.listRef s.heapLists.length] := by
    simp only [buildStart, push, hstack]
  have hlid1 : s.heapLists.length < (buildStart s).heapLists.length := by
    simp only [buildStart, push, List.length_append, List.length_cons, List.length_nil]
    omega
  have hget1 : (buildStart s).heapLists.getD s.heapLists.length dfltList = dfltList := by
    simp only [buildStart, push]
    rw [List.getD_append_right _ _ _ _ (Nat.le_refl _), Nat.sub_self]
    rfl
  obtain ⟨lstack, llen, lj, lcount, lbound, ltake⟩ :=
    buildListLoop_spec s.heapLists.length n (buildStart s) hlid1
      (by rw [hget1]; exact Nat.le_refl 0)
  have hpeek : peekSeq (buildStart s) n = vs := by
    have hd := peekSeq_eq_drop (buildStart s) pre vs (Value.listRef s.heapLists.length)
      (by rw [hbs, List.append_assoc]) n (by omega)
    rw [hd]
    have h0 : vs.length - n = 0 := by omega
    rw [h0, List.drop_zero]
  -- the final state is built from the loop result
  have hFheap : (opBuildList s n).heapLists
      = (buildListLoop (buildStart s) s.heapLists.length n).heapLists := rfl
  have hFstack : (opBuildList s n).stack
      = ((buildListLoop (buildStart s) s.heapLists.length n).stack.dropLast.take
          ((buildListLoop (buildStart s) s.heapLists.length n).stack.dropLast.length - n))
        ++ [Value.listRef s.heapLists.length] := rfl
  have hdrop : (buildListLoop (buildStart s) s.heapLists.length n).stack.dropLast
      = pre ++ vs := by
    rw [lstack, hbs, List.dropLast_concat]
  have hstackF : (opBuildList s n).stack = pre ++ [Value.listRef s.heapLists.length] := by
    rw [hFstack, hdrop]
    have hlen2 : (pre ++ vs).length - n = pre.length := by
      rw [List.length_append]
      omega
    rw [hlen2, List.take_left]
  have hcountF : ((opBuildList s n).heapLists.getD s.heapLists.length dfltList).count
      = n := by
    rw [hFheap, lcount, hget1]
    simp [dfltList]
  have htakeF : ((opBuildList s n).heapLists.getD s.heapLists.length dfltList).items.take n
      = vs := by
    rw [hget1, hpeek] at ltake
    simp only [dfltList, List.take_nil, List.nil_append, Nat.zero_add] at ltake
    rw [hFheap]
    exact ltake
  refine ⟨hstackF, ?_, hcountF, htakeF, ?_⟩
  · rw [hFheap, llen]
    simp only [buildStart, push, List.length_append, List.length_cons, List.length_nil]
  · intro i hi
    have hpstack : (push (opBuildList s n) (Value.num i)).stack
        = pre ++ [Value.listRef s.heapLists.length, Value.num (i : Int)] := by
      simp only [push, hstackF, List.append_assoc]
      rfl
    have hpheap : (push (opBuildList s n) (Value.num i)).heapLists
        = (opBuildList s n).heapLists := rfl
    have hvalid : isValidListIndex
        ((push (opBuildList s n) (Value.num i)).heapLists.getD s.heapLists.length dfltList)
        (i : Int) = true := by
      rw [hpheap]
      refine (isValidListIndex_iff _ _).mpr ⟨by omega, ?_⟩
      rw [hcountF]
      omega
    have hres := opIndexSubscr_ok (push (opBuildList s n) (Value.num i)) pre
      s.heapLists.length (i : Int) hpstack hvalid
    have hval : indexFromList
        ((push (opBuildList s n) (Value.num i)).heapLists.getD s.heapLists.length dfltList)
        (i : Int) = vs.getD i Value.nil := by
      rw [hpheap]
      simp only [indexFromList, Int.toNat_ofNat]
      rw [← getD_take_lt _ n i Value.nil hi, htakeF]
    rw [hval] at hres
    exact hres

/-- Witness for the BUILD_LIST claim: three pushed values become the list
`[10, 20, 30]`, and indexing it at `1` yields the second pushed value. -/
theorem opBuildList_claim_witness :
    (opBuildList exVM7 3).stack = [Value.listRef 0] ∧
    ((opBuildList exVM7 3).heapLists.getD 0 dfltList).count = 3 ∧
    ((opBuildList exVM7 3).heapLists.getD 0 dfltList).items.take 3
      = [Value.num 10, Value.num 20, Value.num 30] ∧
    opIndexSubscr (push (opBuildList exVM7 3) (Value.num 1)) =
      StepResult.ok { opBuildList exVM7 3 with stack := [Value.num 20] } := by
  obtain ⟨h1, h2, h3, h4, h5⟩ :=
    opBuildList_claim exVM7 [] [Value.num 10, Value.num 20, Value.num 30] 3
      rfl rfl (by omega)
  exact ⟨h1, h3, h4, h5 1 (by omega)⟩

/-! ## Claim C8: string interning -/

theorem find?_congr_mem {α : Type} (l : List α) (p q : α → Bool)
    (h : ∀ x ∈ l, p x = q x) : l.find? p = l.find? q := by
  induction l with
  | nil => rfl
  | cons a t ih =>
    rw [List.find?_cons, List.find?_cons, h a (List.mem_cons_self a t)]
    cases q a with
    | true => rfl
    | false => exact ih (fun x hx => h x (List.mem_cons_of_mem a hx))

theorem tableFindString_some_spec (st : InternState) (chars : List Nat) (h : Nat)
    (id : Nat) (hfind : tableFindString st chars h = some id) :
    id ∈ st.table ∧ (st.heap.getD id dfltString).hash = h ∧
      (st.heap.getD id dfltString).chars = chars := by
  have hmem := List.mem_of_find?_eq_some hfind
  have hp := List.find?_some hfind
  simp only [Bool.and_eq_true, beq_iff_eq] at hp
  exact ⟨hmem, hp.1, hp.2⟩

theorem tableFindString_none_spec (st : InternState) (chars : List Nat) (h : Nat)
    (hfind : tableFindString st chars h = none) :
    ∀ id ∈ st.table, ¬((st.heap.getD id dfltString).hash = h ∧
      (st.heap.getD id dfltString).chars = chars) := by
  intro id hid hcontra
  have hx := List.find?_eq_none.mp hfind id hid
  simp only [Bool.and_eq_true, beq_iff_eq] at hx
  exact hx ⟨hcontra.1, hcontra.2⟩

/-- C8: intern canonicity.  `copyString` (and `takeString`, which does the
same interning) preserves the invariant that any two live strings with equal
content are the same object; the returned string carries the requested
characters, the FNV-1a hash, and the ownership mark; existing strings are
untouched; and interning the same characters again returns the same id with
the state unchanged. -/
theorem internCanonicity_claim :
    ∀ (st : InternState) (chars : List Nat), InternInv st →
      (InternInv (copyString st chars).2 ∧
       ((copyString st chars).2.heap.getD (copyString st chars).1 dfltString).chars
         = chars ∧
       ((copyString st chars).2.heap.getD (copyString st chars).1 dfltString).hash
         = hashString chars ∧
       ((copyString st chars).2.heap.getD (copyString st chars).1 dfltString).ownsChars
         = true ∧
       (copyString st chars).1 < (copyString st chars).2.heap.length ∧
       (∀ j, j < st.heap.length →
         (copyString st chars).2.heap.getD j dfltString = st.heap.getD j dfltString) ∧
       copyString (copyString st chars).2 chars = copyString st chars ∧
       takeString st chars = copyString st chars ∧
       (∀ i j, i < (copyString st chars).2.heap.length →
         j < (copyString st chars).2.heap.length →
         (((copyString st chars).2.heap.getD i dfltString).chars
           = ((copyString st chars).2.heap.getD j dfltString).chars ↔ i = j))) := by
  intro st chars hinv
  obtain ⟨inv1, inv2, inv3, inv4, inv5⟩ := hinv
  cases hfind : tableFindString st chars (hashString chars) with
  | some id =>
    have hcs : copyString st chars = (id, st) := by
      simp only [copyString, makeString, hfind]
    obtain ⟨hmem, hhash, hchars⟩ := tableFindString_some_spec st chars _ id hfind
    have hlt : id < st.heap.length := inv2 id hmem
    rw [hcs]
    exact ⟨⟨inv1, inv2, inv3, inv4, inv5⟩, hchars, hhash, inv5 id hlt, hlt,
      fun j hj => rfl, hcs, by simp only [takeString, copyString, makeString, hfind],
      fun i j hi hj => ⟨inv3 i j hi hj, fun he => by rw [he]⟩⟩
  | none =>
    have hcs : copyString st chars
        = (st.heap.length,
            ⟨st.heap ++ [⟨chars, hashString chars, true⟩],
             st.table ++ [st.heap.length]⟩) := by
      simp only [copyString, makeString, hfind]
    have hgetN : (st.heap ++ [(⟨chars, hashString chars, true⟩ : ObjString)]).getD
        st.heap.length dfltString = ⟨chars, hashString chars, true⟩ := by
      rw [List.getD_append_right _ _ _ _ (Nat.le_refl _), Nat.sub_self]
      rfl
    have hgetlt : ∀ j, j < st.heap.length →
        (st.heap ++ [(⟨chars, hashString chars, true⟩ : ObjString)]).getD j dfltString
          = st.heap.getD j dfltString :=
      fun j hj => List.getD_append _ _ _ _ hj
    have hlen : (st.heap ++ [(⟨chars, hashString chars, true⟩ : ObjString)]).length
        = st.heap.length + 1 := by
      rw [List.length_append]
      rfl
    have hfresh : ∀ j, j < st.heap.length →
        (st.heap.getD j dfltString).chars ≠ chars := by
      intro j hj hc
      exact tableFindString_none_spec st chars _ hfind j (inv1 j hj)
        ⟨by rw [inv4 j hj, hc], hc⟩
    have hbound : ∀ j, j < st.heap.length + 1 →
        j < st.heap.length ∨ j = st.heap.length := by
      intro j hj
      omega
    have inv1' : ∀ id, id < st.heap.length + 1 → id ∈ st.table ++ [st.heap.length] := by
      intro id hid
      rcases hbound id hid with hid' | hid'
      · exact List.mem_append.mpr (Or.inl (inv1 id hid'))
      · exact List.mem_append.mpr (Or.inr (by rw [hid']; exact List.mem_singleton_self _))
    have inv2' : ∀ id, id ∈ st.table ++ [st.heap.length] → id < st.heap.length + 1 := by
      intro id hid
      rcases List.mem_append.mp hid with hid' | hid'
      · exact Nat.lt_succ_of_lt (inv2 id hid')
      · rw [List.mem_singleton.mp hid']
        exact Nat.lt_succ_self _
    have inv3' : ∀ i j, i < st.heap.length + 1 → j < st.heap.length + 1 →
        ((st.heap ++ [(⟨chars, hashString chars, true⟩ : ObjString)]).getD i
            dfltString).chars
          = ((st.heap ++ [(⟨chars, hashString chars, true⟩ : ObjString)]).getD j
            dfltString).chars → i = j := by
      intro i j hi hj he
      rcases hbound i hi with hi' | hi' <;> rcases hbound j hj with hj' | hj'
      · rw [hgetlt i hi', hgetlt j hj'] at he
        exact inv3 i j hi' hj' he
      · rw [hgetlt i hi', hj', hgetN] at he
        exact absurd he (hfresh i hi')
      · rw [hgetlt j hj', hi', hgetN] at he
        exact absurd he.symm (hfresh j hj')
      · rw [hi', hj']
    refine ⟨?_, ?_, ?_, ?_, ?_, ?_, ?_, ?_, ?_⟩
    · rw [hcs]
      refine ⟨?_, ?_, ?_, ?_, ?_⟩
      · intro id hid
        rw [hlen] at hid
        exact inv1' id hid
      · intro id hid
        rw [hlen]
        exact inv2' id hid
      · intro i j hi hj
        rw [hlen] at hi hj
        exact inv3' i j hi hj
      · intro id hid
        rw [hlen] at hid
        rcases hbound id hid with hid' | hid'
        · rw [hgetlt id hid']
          exact inv4 id hid'
        · rw [hid', hgetN]
      · intro id hid
        rw [hlen] at hid
        rcases hbound id hid with hid' | hid'
        · rw [hgetlt id hid']
          exact inv5 id hid'
        · rw [hid', hgetN]
    · rw [hcs]
      rw [hgetN]
    · rw [hcs]
      rw [hgetN]
    · rw [hcs]
      rw [hgetN]
    · rw [hcs, hlen]
      exact Nat.lt_succ_self _
    · intro j hj
      rw [hcs]
      exact hgetlt j hj
    · rw [hcs]
      have hp : (((st.heap ++ [(⟨chars, hashString chars, true⟩ : ObjString)]).getD
          st.heap.length dfltString).hash == hashString chars &&
          ((st.heap ++ [(⟨chars, hashString chars, true⟩ : ObjString)]).getD
            st.heap.length dfltString).chars == chars) = true := by
        rw [hgetN]
        simp
      have hfind2 : tableFindString
          (⟨st.heap ++ [⟨chars, hashString chars, true⟩],
            st.table ++ [st.heap.length]⟩ : InternState) chars (hashString chars)
          = some st.heap.length := by
        show (st.table ++ [st.heap.length]).find? (fun id =>
            ((st.heap ++ [(⟨chars, hashString chars, true⟩ : ObjString)]).getD id
              dfltString).hash == hashString chars &&
            ((st.heap ++ [(⟨chars, hashString chars, true⟩ : ObjString)]).getD id
              dfltString).chars == chars) = some st.heap.length
        rw [List.find?_append]
        have hold : st.table.find? (fun id =>
            ((st.heap ++ [(⟨chars, hashString chars, true⟩ : ObjString)]).getD id
              dfltString).hash == hashString chars &&
            ((st.heap ++ [(⟨chars, hashString chars, true⟩ : ObjString)]).getD id
              dfltString).chars == chars) = none := by
          rw [find?_congr_mem st.table _ (fun id =>
            (st.heap.getD id dfltString).hash == hashString chars &&
            (st.heap.getD id dfltString).chars == chars)
            (fun x hx => by rw [hgetlt x (inv2 x hx)])]
          exact hfind
        rw [hold, Option.none_or]
        exact List.find?_cons_of_pos _ hp
      simp only [copyString, makeString, hfind2]
    · rw [hcs]
      simp only [takeString, makeString, hfind]
    · rw [hcs]
      intro i j hi hj
      rw [hlen] at hi hj
      refine ⟨inv3' i j hi hj, fun he => by rw [he]⟩

/-! ## Upvalue machinery: shared lemmas -/

theorem isOpen_lt_length (u : List ObjUpvalue) (id : Nat)
    (h : isOpenUv (u.getD id dfltUpvalue) = true) : id < u.length := by
  by_contra hge
  rw [List.getD_eq_default _ _ (Nat.le_of_not_lt hge)] at h
  simp [isOpenUv, dfltUpvalue] at h

theorem location_eq_slot (u : List ObjUpvalue) (id : Nat)
    (h : isOpenUv (u.getD id dfltUpvalue) = true) :
    (u.getD id dfltUpvalue).location = Loc.slot (slotOfU u id) := by
  cases hloc : (u.getD id dfltUpvalue).location with
  | slot i =>
    have hs : slotOfU u id = i := by simp only [slotOfU, hloc]
    rw [hs]
  | ownClosed =>
    simp only [isOpenUv, hloc] at h
    exact Bool.noConfusion h

theorem takeWhile_congr_mem {α : Type} (l : List α) (p q : α → Bool)
    (h : ∀ x ∈ l, p x = q x) : l.takeWhile p = l.takeWhile q := by
  induction l with
  | nil => rfl
  | cons a t ih =>
    rw [List.takeWhile_cons, List.takeWhile_cons, h a (List.mem_cons_self a t)]
    cases q a with
    | true =>
      rw [if_pos rfl, if_pos rfl, ih (fun x hx => h x (List.mem_cons_of_mem a hx))]
    | false =>
      rw [if_neg Bool.false_ne_true, if_neg Bool.false_ne_true]

theorem dropWhile_congr_mem {α : Type} (l : List α) (p q : α → Bool)
    (h : ∀ x ∈ l, p x = q x) : l.dropWhile p = l.dropWhile q := by
  induction l with
  | nil => rfl
  | cons a t ih =>
    rw [List.dropWhile_cons, List.dropWhile_cons, h a (List.mem_cons_self a t)]
    cases q a with
    | true =>
      rw [if_pos rfl, if_pos rfl, ih (fun x hx => h x (List.mem_cons_of_mem a hx))]
    | false =>
      rw [if_neg Bool.false_ne_true, if_neg Bool.false_ne_true]

theorem bnot_decide_le (a b : Nat) : (!(decide (a ≤ b))) = decide (b < a) := by
  by_cases h : a ≤ b
  · rw [decide_eq_true h, decide_eq_false (Nat.not_lt.mpr h)]
    rfl
  · rw [decide_eq_false h, decide_eq_true (Nat.lt_of_not_le h)]
    rfl

theorem nodup_of_desc {f : Nat → Nat} {l : List Nat}
    (h : List.Pairwise (fun a b => f b < f a) l) : l.Nodup :=
  h.imp (fun hab => fun he => absurd (he ▸ hab) (lt_irrefl _))

theorem desc_takeWhile_filter {f : Nat → Nat} (p : Nat → Bool)
    (hup : ∀ a b, f b ≤ f a → p b = true → p a = true) :
    ∀ l : List Nat, List.Pairwise (fun a b => f b < f a) l →
      (l.takeWhile p = l.filter p ∧
       l.dropWhile p = l.filter (fun x => !(p x))) := by
  intro l
  induction l with
  | nil => intro _; exact ⟨rfl, rfl⟩
  | cons a t ih =>
    intro hp
    rw [List.pairwise_cons] at hp
    obtain ⟨hrel, hrest⟩ := hp
    obtain ⟨iht, ihd⟩ := ih hrest
    cases hpa : p a with
    | true =>
      constructor
      · rw [List.takeWhile_cons, if_pos hpa, List.filter_cons, if_pos hpa, iht]
      · rw [List.dropWhile_cons, if_pos hpa, List.filter_cons,
          if_neg (by rw [hpa]; exact Bool.false_ne_true), ihd]
    | false =>
      have hall : ∀ x ∈ t, p x = false := by
        intro x hx
        cases hpx : p x with
        | false => rfl
        | true =>
          exact absurd (hup a x (Nat.le_of_lt (hrel x hx)) hpx)
            (by rw [hpa]; exact Bool.false_ne_true)
      constructor
      · rw [List.takeWhile_cons, if_neg (by rw [hpa]; exact Bool.false_ne_true),
          List.filter_cons, if_neg (by rw [hpa]; exact Bool.false_ne_true)]
        exact (List.filter_eq_nil.mpr
          (fun x hx => by rw [hall x hx]; exact Bool.false_ne_true)).symm
      · rw [List.dropWhile_cons, if_neg (by rw [hpa]; exact Bool.false_ne_true),
          List.filter_cons, if_pos (by rw [hpa]; rfl)]
        congr 1
        exact (List.filter_eq_self.mpr (fun x hx => by rw [hall x hx]; rfl)).symm

theorem closeUpvaluesAux_spec (stack : List Value) (last : Nat) :
    ∀ (opens : List Nat) (u : List ObjUpvalue),
      (∀ id ∈ opens, isOpenUv (u.getD id dfltUpvalue) = true) →
      opens.Nodup →
      ((closeUpvaluesAux stack u opens last).2
          = opens.dropWhile (fun id => decide (last ≤ slotOfU u id)) ∧
       (∀ id ∈ opens.takeWhile (fun id => decide (last ≤ slotOfU u id)),
         (closeUpvaluesAux stack u opens last).1.getD id dfltUpvalue
           = ⟨Loc.ownClosed, stack.getD (slotOfU u id) Value.nil⟩) ∧
       (∀ id, id ∉ opens.takeWhile (fun id => decide (last ≤ slotOfU u id)) →
         (closeUpvaluesAux stack u opens last).1.getD id dfltUpvalue
           = u.getD id dfltUpvalue) ∧
       (closeUpvaluesAux stack u opens last).1.length = u.length) := by
  intro opens
  induction opens with
  | nil =>
    intro u _ _
    exact ⟨rfl, fun id hid => absurd hid (List.not_mem_nil id),
      fun id _ => rfl, rfl⟩
  | cons id rest ih =>
    intro u hopen hnodup
    have hopen_id := hopen id (List.mem_cons_self id rest)
    have hidlt : id < u.length := isOpen_lt_length u id hopen_id
    have hloc := location_eq_slot u id hopen_id
    have hid_rest : id ∉ rest := (List.nodup_cons.mp hnodup).1
    have hnodup' : rest.Nodup := (List.nodup_cons.mp hnodup).2
    by_cases hcase : last ≤ slotOfU u id
    · have hstep : closeUpvaluesAux stack u (id :: rest) last
          = closeUpvaluesAux stack
              (u.set id ⟨Loc.ownClosed, stack.getD (slotOfU u id) Value.nil⟩)
              rest last := by
        simp only [closeUpvaluesAux, hloc]
        rw [if_pos hcase]
      have hopen' : ∀ x ∈ rest, isOpenUv
          ((u.set id ⟨Loc.ownClosed, stack.getD (slotOfU u id) Value.nil⟩).getD x
            dfltUpvalue) = true := by
        intro x hx
        rw [getD_set_ne _ _ _ _ _ (fun he => hid_rest (by rw [he]; exact hx))]
        exact hopen x (List.mem_cons_of_mem id hx)
      have hslot' : ∀ x ∈ rest, slotOfU
          (u.set id ⟨Loc.ownClosed, stack.getD (slotOfU u id) Value.nil⟩) x
            = slotOfU u x := by
        intro x hx
        simp only [slotOfU]
        rw [getD_set_ne _ _ _ _ _ (fun he => hid_rest (by rw [he]; exact hx))]
      obtain ⟨b1, b2, b3, b4⟩ :=
        ih (u.set id ⟨Loc.ownClosed, stack.getD (slotOfU u id) Value.nil⟩)
          hopen' hnodup'
      have hp : decide (last ≤ slotOfU u id) = true := decide_eq_true hcase
      refine ⟨?_, ?_, ?_, ?_⟩
      · rw [hstep, b1, List.dropWhile_cons, if_pos hp]
        exact dropWhile_congr_mem rest _ _ (fun x hx => by rw [hslot' x hx])
      · intro x hx
        rw [List.takeWhile_cons, if_pos hp] at hx
        rcases List.mem_cons.mp hx with hx' | hx'
        · subst hx'
          have hnot : x ∉ rest.takeWhile (fun y => decide (last ≤ slotOfU
              (u.set x ⟨Loc.ownClosed, stack.getD (slotOfU u x) Value.nil⟩) y)) :=
            fun hmem => hid_rest ((List.takeWhile_sublist _).subset hmem)
          rw [hstep, b3 x hnot]
          exact getD_set_self u x _ dfltUpvalue hidlt
        · have hxrest : x ∈ rest := (List.takeWhile_sublist _).subset hx'
          have hx2 : x ∈ rest.takeWhile (fun y => decide (last ≤ slotOfU
              (u.set id ⟨Loc.ownClosed, stack.getD (slotOfU u id) Value.nil⟩) y)) := by
            rw [takeWhile_congr_mem rest _
              (fun y => decide (last ≤ slotOfU u y))
              (fun y hy => by rw [hslot' y hy])]
            exact hx'
          rw [hstep, b2 x hx2, hslot' x hxrest]
      · intro x hx
        rw [List.takeWhile_cons, if_pos hp] at hx
        have hxid : x ≠ id := fun he => hx (by rw [he]; exact List.mem_cons_self _ _)
        have hxtw : x ∉ rest.takeWhile (fun y => decide (last ≤ slotOfU
            (u.set id ⟨Loc.ownClosed, stack.getD (slotOfU u id) Value.nil⟩) y)) := by
          intro hmem
          apply hx
          apply List.mem_cons_of_mem
          rw [takeWhile_congr_mem rest _
            (fun y => decide (last ≤ slotOfU u y))
            (fun y hy => by rw [hslot' y hy])] at hmem
          exact hmem
        rw [hstep, b3 x hxtw, getD_set_ne _ _ _ _ _ (fun he => hxid he.symm)]
      · rw [hstep, b4, List.length_set]
    · have hstep : closeUpvaluesAux stack u (id :: rest) last = (u, id :: rest) := by
        simp only [closeUpvaluesAux, hloc]
        rw [if_neg hcase]
      have hp : decide (last ≤ slotOfU u id) = false := decide_eq_false hcase
      refine ⟨?_, ?_, ?_, ?_⟩
      · rw [hstep, List.dropWhile_cons, if_neg (by rw [hp]; exact Bool.false_ne_true)]
      · intro x hx
        rw [List.takeWhile_cons, if_neg (by rw [hp]; exact Bool.false_ne_true)] at hx
        exact absurd hx (List.not_mem_nil x)
      · intro x _
        rw [hstep]
      · rw [hstep]

theorem exIntern_inv : InternInv exIntern :=
  ⟨fun id hid => absurd hid (Nat.not_lt_zero id),
   fun id hid => absurd hid (List.not_mem_nil id),
   fun i j hi _ _ => absurd hi (Nat.not_lt_zero i),
   fun id hid => absurd hid (Nat.not_lt_zero id),
   fun id hid => absurd hid (Nat.not_lt_zero id)⟩

/-- Witness for the interning claim on the empty intern state and the bytes
of "hi". -/
theorem internCanonicity_claim_witness :
    ((copyString exIntern [104, 105]).2.heap.getD (copyString exIntern [104, 105]).1
        dfltString).chars = [104, 105] ∧
    ((copyString exIntern [104, 105]).2.heap.getD (copyString exIntern [104, 105]).1
        dfltString).hash = hashString [104, 105] ∧
    copyString (copyString exIntern [104, 105]).2 [104, 105]
      = copyString exIntern [104, 105] ∧
    InternInv (copyString exIntern [104, 105]).2 := by
  obtain ⟨h1, h2, h3, h4, h5, h6, h7, h8, h9⟩ :=
    internCanonicity_claim exIntern [104, 105] exIntern_inv
  exact ⟨h2, h3, h7, h1⟩

/-! ## Claim C1: closing upvalues -/

/-- C1: under the open-list invariant (each upvalue OPEN with a live stack
location or CLOSED targeting its own `closed` field, open list strictly
descending), `closeUpvalues(watermark)` closes exactly the open upvalues at
or above the watermark: each copies the pointed-to stack value into `closed`
and retargets `location` to that field, each is unlinked, every other upvalue
is untouched, and the invariant (including strict descent) still holds. -/
theorem closeUpvalues_claim :
    ∀ (s : VM) (last : Nat), OpenListInv s →
      ((closeUpvalues s last).openUpvalues
         = s.openUpvalues.filter
             (fun id => decide (slotOfU s.heapUpvalues id < last)) ∧
       (∀ id ∈ s.openUpvalues, last ≤ slotOfU s.heapUpvalues id →
         (closeUpvalues s last).heapUpvalues.getD id dfltUpvalue
           = ⟨Loc.ownClosed, s.stack.getD (slotOfU s.heapUpvalues id) Value.nil⟩) ∧
       (∀ id, ¬(id ∈ s.openUpvalues ∧ last ≤ slotOfU s.heapUpvalues id) →
         (closeUpvalues s last).heapUpvalues.getD id dfltUpvalue
           = s.heapUpvalues.getD id dfltUpvalue) ∧
       (closeUpvalues s last).stack = s.stack ∧
       (closeUpvalues s last).heapUpvalues.length = s.heapUpvalues.length ∧
       OpenListInv (closeUpvalues s last)) := by
  intro s last hinv
  obtain ⟨inv1, inv2, inv3⟩ := hinv
  have hopen : ∀ id ∈ s.openUpvalues,
      isOpenUv (s.heapUpvalues.getD id dfltUpvalue) = true :=
    fun id hid => (inv1 id hid).1
  have hnd : s.openUpvalues.Nodup := nodup_of_desc inv3
  obtain ⟨a1, a2, a3, a4⟩ :=
    closeUpvaluesAux_spec s.stack last s.openUpvalues s.heapUpvalues hopen hnd
  have hup : ∀ a b, slotOfU s.heapUpvalues b ≤ slotOfU s.heapUpvalues a →
      decide (last ≤ slotOfU s.heapUpvalues b) = true →
      decide (last ≤ slotOfU s.heapUpvalues a) = true := by
    intro a b hle hb
    rw [decide_eq_true_eq] at hb
    exact decide_eq_true (Nat.le_trans hb hle)
  obtain ⟨htw, hdw⟩ := desc_takeWhile_filter
    (fun id => decide (last ≤ slotOfU s.heapUpvalues id)) hup s.openUpvalues inv3
  have hcheap : (closeUpvalues s last).heapUpvalues
      = (closeUpvaluesAux s.stack s.heapUpvalues s.openUpvalues last).1 := rfl
  have hcopen : (closeUpvalues s last).openUpvalues
      = (closeUpvaluesAux s.stack s.heapUpvalues s.openUpvalues last).2 := rfl
  have hmemtw : ∀ id, id ∈ s.openUpvalues.takeWhile
        (fun id => decide (last ≤ slotOfU s.heapUpvalues id))
      ↔ (id ∈ s.openUpvalues ∧ last ≤ slotOfU s.heapUpvalues id) := by
    intro id
    rw [htw, List.mem_filter, decide_eq_true_eq]
  have hlist : (closeUpvalues s last).openUpvalues
      = s.openUpvalues.filter
          (fun id => decide (slotOfU s.heapUpvalues id < last)) := by
    rw [hcopen, a1, hdw]
    exact List.filter_congr
      (fun x _ => bnot_decide_le last (slotOfU s.heapUpvalues x))
  have hclosed : ∀ id ∈ s.openUpvalues, last ≤ slotOfU s.heapUpvalues id →
      (closeUpvalues s last).heapUpvalues.getD id dfltUpvalue
        = ⟨Loc.ownClosed, s.stack.getD (slotOfU s.heapUpvalues id) Value.nil⟩ := by
    intro id hid hge
    rw [hcheap]
    exact a2 id ((hmemtw id).mpr ⟨hid, hge⟩)
  have huntouched : ∀ id, ¬(id ∈ s.openUpvalues ∧ last ≤ slotOfU s.heapUpvalues id) →
      (closeUpvalues s last).heapUpvalues.getD id dfltUpvalue
        = s.heapUpvalues.getD id dfltUpvalue := by
    intro id hn
    rw [hcheap]
    exact a3 id (fun hmem => hn ((hmemtw id).mp hmem))
  have hslot_pres : ∀ id ∈ s.openUpvalues, slotOfU s.heapUpvalues id < last →
      slotOfU (closeUpvalues s last).heapUpvalues id = slotOfU s.heapUpvalues id := by
    intro id hid hlt
    simp only [slotOfU]
    rw [huntouched id (fun hc => absurd hc.2 (Nat.not_le.mpr hlt))]
  refine ⟨hlist, hclosed, huntouched, rfl, by rw [hcheap]; exact a4, ?_, ?_, ?_⟩
  · -- clause 1 of the invariant for the new state
    intro id hid
    rw [hlist] at hid
    obtain ⟨hmem, hltb⟩ := List.mem_filter.mp hid
    rw [decide_eq_true_eq] at hltb
    have hunch := huntouched id (fun hc => absurd hc.2 (Nat.not_le.mpr hltb))
    constructor
    · rw [hunch]
      exact (inv1 id hmem).1
    · rw [hslot_pres id hmem hltb]
      exact (inv1 id hmem).2
  · -- clause 2: every OPEN upvalue is on the (new) list
    intro id hlen hopen'
    rw [hcheap, a4] at hlen
    by_cases hmem : id ∈ s.openUpvalues
    · by_cases hge : last ≤ slotOfU s.heapUpvalues id
      · rw [hclosed id hmem hge] at hopen'
        exact absurd hopen' (by simp [isOpenUv])
      · rw [hlist]
        exact List.mem_filter.mpr
          ⟨hmem, decide_eq_true (Nat.lt_of_not_le hge)⟩
    · rw [huntouched id (fun hc => hmem hc.1)] at hopen'
      exact absurd (inv2 id hlen hopen') hmem
  · -- clause 3: strict descent survives
    have hsub : List.Pairwise
        (fun a b => slotOfU s.heapUpvalues b < slotOfU s.heapUpvalues a)
        (closeUpvalues s last).openUpvalues := by
      rw [hlist]
      exact List.Pairwise.sublist (List.filter_sublist _) inv3
    refine List.Pairwise.imp_of_mem ?_ hsub
    intro a b ha hb hr
    rw [hlist] at ha hb
    obtain ⟨hma, hlta⟩ := List.mem_filter.mp ha
    obtain ⟨hmb, hltb⟩ := List.mem_filter.mp hb
    rw [decide_eq_true_eq] at hlta hltb
    rw [hslot_pres a hma hlta, hslot_pres b hmb hltb]
    exact hr

theorem exVM1_inv : OpenListInv exVM1 := by
  unfold OpenListInv
  refine ⟨?_, ?_, ?_⟩ <;> decide

theorem exVM2_inv : OpenListInv exVM2 := by
  unfold OpenListInv
  refine ⟨?_, ?_, ?_⟩ <;> decide

/-- Witness for the closing claim: closing at watermark `1` on a state with
open upvalues at slots `1` and `0` closes exactly the one at slot `1`,
copying the stack value `7` into it, and keeps the one at slot `0` open. -/
theorem closeUpvalues_claim_witness :
    (closeUpvalues exVM1 1).openUpvalues
      = exVM1.openUpvalues.filter
          (fun id => decide (slotOfU exVM1.heapUpvalues id < 1)) ∧
    (closeUpvalues exVM1 1).heapUpvalues.getD 1 dfltUpvalue
      = ⟨Loc.ownClosed, exVM1.stack.getD (slotOfU exVM1.heapUpvalues 1) Value.nil⟩ ∧
    OpenListInv (closeUpvalues exVM1 1) := by
  obtain ⟨h1, h2, h3, h4, h5, h6⟩ := closeUpvalues_claim exVM1 1 exVM1_inv
  exact ⟨h1, h2 1 (by decide) (by decide), h6⟩

/-! ## Claim C2: capturing upvalues -/

theorem desc_slot_inj {f : Nat → Nat} :
    ∀ {l : List Nat}, List.Pairwise (fun a b => f b < f a) l →
      ∀ a ∈ l, ∀ b ∈ l, f a = f b → a = b := by
  intro l
  induction l with
  | nil =>
    intro _ a ha
    exact absurd ha (List.not_mem_nil a)
  | cons x t ih =>
    intro h a ha b hb hfe
    rw [List.pairwise_cons] at h
    obtain ⟨hrel, hrest⟩ := h
    rcases List.mem_cons.mp ha with ha' | ha' <;> rcases List.mem_cons.mp hb with hb' | hb'
    · rw [ha', hb']
    · rw [ha'] at hfe
      exact absurd hfe (Nat.ne_of_gt (hrel b hb'))
    · rw [hb'] at hfe
      exact absurd hfe.symm (Nat.ne_of_gt (hrel a ha'))
    · exact ih hrest a ha' b hb' hfe

theorem vm_update_eta (s : VM) (u : List ObjUpvalue) (o : List Nat)
    (hu : u = s.heapUpvalues) (ho : o = s.openUpvalues) :
    ({ s with heapUpvalues := u, openUpvalues := o } : VM) = s := by
  subst hu
  subst ho
  rfl

theorem upvalRead_write_self (s' : VM) (id : Nat) (localSlot : Nat) (v : Value)
    (hloc : (s'.heapUpvalues.getD id dfltUpvalue).location = Loc.slot localSlot)
    (hlt : localSlot < s'.stack.length) :
    upvalRead (upvalWrite s' id v) id = v := by
  have hw : upvalWrite s' id v = { s' with stack := s'.stack.set localSlot v } := by
    simp only [upvalWrite, hloc]
  rw [hw]
  have hr : upvalRead { s' with stack := s'.stack.set localSlot v } id
      = (s'.stack.set localSlot v).getD localSlot Value.nil := by
    simp only [upvalRead, hloc]
  rw [hr]
  exact getD_set_self s'.stack localSlot v Value.nil hlt

theorem captureUpvalueAux_spec (u : List ObjUpvalue) (localSlot : Nat) :
    ∀ (opens : List Nat),
      (∀ id ∈ opens, isOpenUv (u.getD id dfltUpvalue) = true) →
      List.Pairwise (fun a b => slotOfU u b < slotOfU u a) opens →
      (((∃ j ∈ opens, slotOfU u j = localSlot) →
         ((captureUpvalueAux u opens localSlot).1 ∈ opens ∧
          slotOfU u (captureUpvalueAux u opens localSlot).1 = localSlot ∧
          (captureUpvalueAux u opens localSlot).2.1 = u ∧
          (captureUpvalueAux u opens localSlot).2.2 = opens)) ∧
       ((¬∃ j ∈ opens, slotOfU u j = localSlot) →
         ((captureUpvalueAux u opens localSlot).1 = u.length ∧
          (captureUpvalueAux u opens localSlot).2.1
            = u ++ [⟨Loc.slot localSlot, Value.nil⟩] ∧
          (captureUpvalueAux u opens localSlot).2.2
            = opens.takeWhile (fun id => decide (localSlot < slotOfU u id))
              ++ u.length
                :: opens.dropWhile (fun id => decide (localSlot < slotOfU u id))))) := by
  intro opens
  induction opens with
  | nil =>
    intro _ _
    refine ⟨?_, ?_⟩
    · rintro ⟨j, hj, _⟩
      exact absurd hj (List.not_mem_nil j)
    · intro _
      exact ⟨rfl, rfl, rfl⟩
  | cons id rest ih =>
    intro hopen hdesc
    have hopen_id := hopen id (List.mem_cons_self id rest)
    have hloc := location_eq_slot u id hopen_id
    have hrest : List.Pairwise (fun a b => slotOfU u b < slotOfU u a) rest :=
      (List.pairwise_cons.mp hdesc).2
    have hrel : ∀ b ∈ rest, slotOfU u b < slotOfU u id :=
      (List.pairwise_cons.mp hdesc).1
    by_cases h1 : localSlot < slotOfU u id
    · have hstep : captureUpvalueAux u (id :: rest) localSlot
          = ((captureUpvalueAux u rest localSlot).1,
             (captureUpvalueAux u rest localSlot).2.1,
             id :: (captureUpvalueAux u rest localSlot).2.2) := by
        simp only [captureUpvalueAux, hloc]
        rw [if_pos h1]
      obtain ⟨ihex, ihfr⟩ :=
        ih (fun x hx => hopen x (List.mem_cons_of_mem id hx)) hrest
      refine ⟨?_, ?_⟩
      · rintro ⟨j, hj, hjs⟩
        rcases List.mem_cons.mp hj with hj' | hj'
        · rw [hj'] at hjs
          omega
        · obtain ⟨m1, m2, m3, m4⟩ := ihex ⟨j, hj', hjs⟩
          rw [hstep]
          exact ⟨List.mem_cons_of_mem id m1, m2, m3, by rw [m4]⟩
      · intro hne
        have hne' : ¬∃ j ∈ rest, slotOfU u j = localSlot :=
          fun hc => hne ⟨hc.choose, List.mem_cons_of_mem id hc.choose_spec.1,
            hc.choose_spec.2⟩
        obtain ⟨m1, m2, m3⟩ := ihfr hne'
        rw [hstep]
        refine ⟨m1, m2, ?_⟩
        rw [List.takeWhile_cons, if_pos (decide_eq_true h1),
          List.dropWhile_cons, if_pos (decide_eq_true h1), m3]
        rfl
    · by_cases h2 : slotOfU u id = localSlot
      · have hstep : captureUpvalueAux u (id :: rest) localSlot = (id, u, id :: rest) := by
          simp only [captureUpvalueAux, hloc]
          rw [if_neg h1, if_pos h2]
        refine ⟨?_, ?_⟩
        · intro _
          rw [hstep]
          exact ⟨List.mem_cons_self id rest, h2, rfl, rfl⟩
        · intro hne
          exact absurd ⟨id, List.mem_cons_self id rest, h2⟩ hne
      · have h3 : slotOfU u id < localSlot := by omega
        have hstep : captureUpvalueAux u (id :: rest) localSlot
            = (u.length, u ++ [⟨Loc.slot localSlot, Value.nil⟩],
               u.length :: id :: rest) := by
          simp only [captureUpvalueAux, hloc]
          rw [if_neg h1, if_neg h2]
        have hpd : decide (localSlot < slotOfU u id) = false := decide_eq_false h1
        refine ⟨?_, ?_⟩
        · rintro ⟨j, hj, hjs⟩
          rcases List.mem_cons.mp hj with hj' | hj'
          · rw [hj'] at hjs
            omega
          · have := hrel j hj'
            omega
        · intro _
          rw [hstep]
          refine ⟨rfl, rfl, ?_⟩
          rw [List.takeWhile_cons, if_neg (by rw [hpd]; exact Bool.false_ne_true),
            List.dropWhile_cons, if_neg (by rw [hpd]; exact Bool.false_ne_true)]
          rfl

/-- Under the open-list invariant, inserting a fresh upvalue for a not-yet
captured slot preserves the invariant. -/
theorem captureFresh_inv (s : VM) (localSlot : Nat)
    (hinv : OpenListInv s) (hlt : localSlot < s.stack.length)
    (hne : ¬∃ j ∈ s.openUpvalues, slotOfU s.heapUpvalues j = localSlot) :
    OpenListInv
      { s with
          heapUpvalues := s.heapUpvalues ++ [⟨Loc.slot localSlot, Value.nil⟩],
          openUpvalues :=
            s.openUpvalues.takeWhile
              (fun id => decide (localSlot < slotOfU s.heapUpvalues id))
            ++ s.heapUpvalues.length
              :: s.openUpvalues.dropWhile
                (fun id => decide (localSlot < slotOfU s.heapUpvalues id)) } := by
  obtain ⟨inv1, inv2, inv3⟩ := hinv
  have hgetN : (s.heapUpvalues ++ [(⟨Loc.slot localSlot, Value.nil⟩ : ObjUpvalue)]).getD
      s.heapUpvalues.length dfltUpvalue = ⟨Loc.slot localSlot, Value.nil⟩ := by
    rw [List.getD_append_right _ _ _ _ (Nat.le_refl _), Nat.sub_self]
    rfl
  have hgetlt : ∀ j, j < s.heapUpvalues.length →
      (s.heapUpvalues ++ [(⟨Loc.slot localSlot, Value.nil⟩ : ObjUpvalue)]).getD j
        dfltUpvalue = s.heapUpvalues.getD j dfltUpvalue :=
    fun j hj => List.getD_append _ _ _ _ hj
  have hslotN : slotOfU
      (s.heapUpvalues ++ [(⟨Loc.slot localSlot, Value.nil⟩ : ObjUpvalue)])
      s.heapUpvalues.length = localSlot := by
    simp only [slotOfU, hgetN]
  have hslotlt : ∀ j, j < s.heapUpvalues.length →
      slotOfU (s.heapUpvalues ++ [(⟨Loc.slot localSlot, Value.nil⟩ : ObjUpvalue)]) j
        = slotOfU s.heapUpvalues j := by
    intro j hj
    simp only [slotOfU]
    rw [hgetlt j hj]
  have hmemlt : ∀ j ∈ s.openUpvalues, j < s.heapUpvalues.length :=
    fun j hj => isOpen_lt_length _ _ (inv1 j hj).1
  have hup : ∀ a b, slotOfU s.heapUpvalues b ≤ slotOfU s.heapUpvalues a →
      decide (localSlot < slotOfU s.heapUpvalues b) = true →
      decide (localSlot < slotOfU s.heapUpvalues a) = true := by
    intro a b hle hb
    rw [decide_eq_true_eq] at hb
    exact decide_eq_true (Nat.lt_of_lt_of_le hb hle)
  obtain ⟨htw, hdw⟩ := desc_takeWhile_filter
    (fun id => decide (localSlot < slotOfU s.heapUpvalues id)) hup s.openUpvalues inv3
  have hmem_take : ∀ x, x ∈ s.openUpvalues.takeWhile
        (fun id => decide (localSlot < slotOfU s.heapUpvalues id)) →
      x ∈ s.openUpvalues ∧ localSlot < slotOfU s.heapUpvalues x := by
    intro x hx
    rw [htw] at hx
    obtain ⟨hm, hp⟩ := List.mem_filter.mp hx
    rw [decide_eq_true_eq] at hp
    exact ⟨hm, hp⟩
  have hmem_drop : ∀ x, x ∈ s.openUpvalues.dropWhile
        (fun id => decide (localSlot < slotOfU s.heapUpvalues id)) →
      x ∈ s.openUpvalues ∧ slotOfU s.heapUpvalues x < localSlot := by
    intro x hx
    rw [hdw] at hx
    obtain ⟨hm, hp⟩ := List.mem_filter.mp hx
    rw [Bool.not_eq_true', decide_eq_false_iff_not, Nat.not_lt] at hp
    refine ⟨hm, Nat.lt_of_le_of_ne hp ?_⟩
    exact fun he => hne ⟨x, hm, he⟩
  refine ⟨?_, ?_, ?_⟩
  · intro j hj
    rcases List.mem_append.mp hj with hj' | hj'
    · obtain ⟨hm, _⟩ := hmem_take j hj'
      refine ⟨?_, ?_⟩
      · rw [hgetlt j (hmemlt j hm)]
        exact (inv1 j hm).1
      · rw [hslotlt j (hmemlt j hm)]
        exact (inv1 j hm).2
    · rcases List.mem_cons.mp hj' with hj'' | hj''
      · rw [hj'']
        refine ⟨?_, ?_⟩
        · rw [hgetN]
          rfl
        · rw [hslotN]
          exact hlt
      · obtain ⟨hm, _⟩ := hmem_drop j hj''
        refine ⟨?_, ?_⟩
        · rw [hgetlt j (hmemlt j hm)]
          exact (inv1 j hm).1
        · rw [hslotlt j (hmemlt j hm)]
          exact (inv1 j hm).2
  · intro j hjlen hjopen
    rw [List.length_append, List.length_singleton] at hjlen
    by_cases hj : j < s.heapUpvalues.length
    · rw [hgetlt j hj] at hjopen
      have hmem := inv2 j hj hjopen
      rw [← List.takeWhile_append_dropWhile
        (fun id => decide (localSlot < slotOfU s.heapUpvalues id)) s.openUpvalues]
        at hmem
      rcases List.mem_append.mp hmem with hm | hm
      · exact List.mem_append.mpr (Or.inl hm)
      · exact List.mem_append.mpr (Or.inr (List.mem_cons_of_mem _ hm))
    · have hj' : j = s.heapUpvalues.length := by omega
      rw [hj']
      exact List.mem_append.mpr (Or.inr (List.mem_cons_self _ _))
  · rw [List.pairwise_append]
    refine ⟨?_, ?_, ?_⟩
    · refine List.Pairwise.imp_of_mem ?_
        (List.Pairwise.sublist (List.takeWhile_sublist _) inv3)
      intro a b ha hb hr
      rw [hslotlt a (hmemlt a (hmem_take a ha).1),
        hslotlt b (hmemlt b (hmem_take b hb).1)]
      exact hr
    · rw [List.pairwise_cons]
      refine ⟨?_, ?_⟩
      · intro b hb
        rw [hslotN, hslotlt b (hmemlt b (hmem_drop b hb).1)]
        exact (hmem_drop b hb).2
      · refine List.Pairwise.imp_of_mem ?_
          (List.Pairwise.sublist (List.dropWhile_sublist _) inv3)
        intro a b ha hb hr
        rw [hslotlt a (hmemlt a (hmem_drop a ha).1),
          hslotlt b (hmemlt b (hmem_drop b hb).1)]
        exact hr
    · intro a ha b hb
      have hta := hmem_take a ha
      rcases List.mem_cons.mp hb with hb' | hb'
      · rw [hb', hslotN, hslotlt a (hmemlt a hta.1)]
        exact hta.2
      · have htb := hmem_drop b hb'
        rw [hslotlt a (hmemlt a hta.1), hslotlt b (hmemlt b htb.1)]
        exact Nat.lt_trans htb.2 hta.2

/-- C2: under the open-list invariant, `captureUpvalue(ptr)` returns the
existing open upvalue at `ptr` (leaving the state unchanged) when one is on
the open list, and otherwise inserts a freshly created upvalue at the
position that keeps the list sorted by descending stack address; either way
the returned upvalue is open at `ptr`, the invariant still holds, and a
second capture of the same slot returns the very same upvalue, so that a
write through the shared cell is observed by a read through it. -/
theorem captureUpvalue_claim :
    ∀ (s : VM) (localSlot : Nat), OpenListInv s → localSlot < s.stack.length →
      (OpenListInv (captureUpvalue s localSlot).2 ∧
       (captureUpvalue s localSlot).2.stack = s.stack ∧
       isOpenUv ((captureUpvalue s localSlot).2.heapUpvalues.getD
         (captureUpvalue s localSlot).1 dfltUpvalue) = true ∧
       slotOfU (captureUpvalue s localSlot).2.heapUpvalues
         (captureUpvalue s localSlot).1 = localSlot ∧
       (captureUpvalue s localSlot).1 ∈ (captureUpvalue s localSlot).2.openUpvalues ∧
       ((∃ j ∈ s.openUpvalues, slotOfU s.heapUpvalues j = localSlot) →
         (captureUpvalue s localSlot).2 = s) ∧
       ((¬∃ j ∈ s.openUpvalues, slotOfU s.heapUpvalues j = localSlot) →
         ((captureUpvalue s localSlot).1 = s.heapUpvalues.length ∧
          (captureUpvalue s localSlot).2.heapUpvalues
            = s.heapUpvalues ++ [⟨Loc.slot localSlot, Value.nil⟩] ∧
          (captureUpvalue s localSlot).2.openUpvalues
            = s.openUpvalues.takeWhile
                (fun id => decide (localSlot < slotOfU s.heapUpvalues id))
              ++ s.heapUpvalues.length
                :: s.openUpvalues.dropWhile
                  (fun id => decide (localSlot < slotOfU s.heapUpvalues id)))) ∧
       captureUpvalue (captureUpvalue s localSlot).2 localSlot
         = ((captureUpvalue s localSlot).1, (captureUpvalue s localSlot).2) ∧
       (∀ v, upvalRead (upvalWrite (captureUpvalue s localSlot).2
           (captureUpvalue s localSlot).1 v) (captureUpvalue s localSlot).1 = v)) := by
  intro s localSlot hinv hlt
  obtain ⟨inv1, inv2, inv3⟩ := hinv
  obtain ⟨exC, frC⟩ := captureUpvalueAux_spec s.heapUpvalues localSlot s.openUpvalues
    (fun id hid => (inv1 id hid).1) inv3
  by_cases hex : ∃ j ∈ s.openUpvalues, slotOfU s.heapUpvalues j = localSlot
  · obtain ⟨m1, m2, m3, m4⟩ := exC hex
    have hstate : (captureUpvalue s localSlot).2 = s := by
      show ({ s with
          heapUpvalues := (captureUpvalueAux s.heapUpvalues s.openUpvalues localSlot).2.1,
          openUpvalues := (captureUpvalueAux s.heapUpvalues s.openUpvalues localSlot).2.2 }
        : VM) = s
      exact vm_update_eta s _ _ m3 m4
    have hopen1 : isOpenUv (s.heapUpvalues.getD (captureUpvalue s localSlot).1
        dfltUpvalue) = true := (inv1 _ m1).1
    have m2c : slotOfU s.heapUpvalues (captureUpvalue s localSlot).1 = localSlot := m2
    have hloc1 : (s.heapUpvalues.getD (captureUpvalue s localSlot).1
        dfltUpvalue).location = Loc.slot localSlot := by
      have hle := location_eq_slot s.heapUpvalues (captureUpvalue s localSlot).1 hopen1
      rw [hle, m2c]
    refine ⟨?_, ?_, ?_, ?_, ?_, fun _ => hstate, fun hne => absurd hex hne, ?_, ?_⟩
    · rw [hstate]
      exact ⟨inv1, inv2, inv3⟩
    · rw [hstate]
    · rw [hstate]
      exact hopen1
    · rw [hstate]
      exact m2c
    · rw [hstate]
      exact m1
    · rw [hstate]
      obtain ⟨m1w, m2w, m3w, m4w⟩ := exC hex
      exact Prod.ext rfl hstate
    · intro v
      refine upvalRead_write_self (captureUpvalue s localSlot).2
        (captureUpvalue s localSlot).1 localSlot v ?_ ?_
      · rw [hstate]
        exact hloc1
      · rw [hstate]
        exact hlt
  · obtain ⟨m1, m2, m3⟩ := frC hex
    have hstate : (captureUpvalue s localSlot).2
        = { s with
            heapUpvalues := s.heapUpvalues ++ [⟨Loc.slot localSlot, Value.nil⟩],
            openUpvalues :=
              s.openUpvalues.takeWhile
                (fun id => decide (localSlot < slotOfU s.heapUpvalues id))
              ++ s.heapUpvalues.length
                :: s.openUpvalues.dropWhile
                  (fun id => decide (localSlot < slotOfU s.heapUpvalues id)) } := by
      show ({ s with
          heapUpvalues := (captureUpvalueAux s.heapUpvalues s.openUpvalues localSlot).2.1,
          openUpvalues := (captureUpvalueAux s.heapUpvalues s.openUpvalues localSlot).2.2 }
        : VM) = _
      rw [m2, m3]
    have hid : (captureUpvalue s localSlot).1 = s.heapUpvalues.length := m1
    have hinv' := captureFresh_inv s localSlot ⟨inv1, inv2, inv3⟩ hlt hex
    have hgetN2 : (captureUpvalue s localSlot).2.heapUpvalues.getD
        (captureUpvalue s localSlot).1 dfltUpvalue
          = ⟨Loc.slot localSlot, Value.nil⟩ := by
      rw [hstate, hid]
      show (s.heapUpvalues ++ [(⟨Loc.slot localSlot, Value.nil⟩ : ObjUpvalue)]).getD
        s.heapUpvalues.length dfltUpvalue = _
      rw [List.getD_append_right _ _ _ _ (Nat.le_refl _), Nat.sub_self]
      rfl
    have hmemN : (captureUpvalue s localSlot).1
        ∈ (captureUpvalue s localSlot).2.openUpvalues := by
      rw [hstate, hid]
      exact List.mem_append.mpr (Or.inr (List.mem_cons_self _ _))
    have hslotN2 : slotOfU (captureUpvalue s localSlot).2.heapUpvalues
        (captureUpvalue s localSlot).1 = localSlot := by
      simp only [slotOfU, hgetN2]
    refine ⟨?_, ?_, ?_, hslotN2, hmemN, fun hc => absurd hc hex,
      fun _ => ⟨m1, by rw [hstate], by rw [hstate]⟩, ?_, ?_⟩
    · rw [hstate]
      exact hinv'
    · rw [hstate]
    · rw [hgetN2]
      rfl
    · -- a second capture of the same slot finds the freshly inserted upvalue
      obtain ⟨c1', c2', c3'⟩ := hinv'
      rw [hstate]
      obtain ⟨exC', _⟩ := captureUpvalueAux_spec
        (s.heapUpvalues ++ [⟨Loc.slot localSlot, Value.nil⟩]) localSlot
        (s.openUpvalues.takeWhile
            (fun id => decide (localSlot < slotOfU s.heapUpvalues id))
          ++ s.heapUpvalues.length
            :: s.openUpvalues.dropWhile
              (fun id => decide (localSlot < slotOfU s.heapUpvalues id)))
        (fun id hid => (c1' id hid).1) c3'
      have slotN2 : slotOfU
          (s.heapUpvalues ++ [(⟨Loc.slot localSlot, Value.nil⟩ : ObjUpvalue)])
          s.heapUpvalues.length = localSlot := by
        simp only [slotOfU]
        rw [List.getD_append_right _ _ _ _ (Nat.le_refl _), Nat.sub_self]
        rfl
      have memN2 : s.heapUpvalues.length
          ∈ s.openUpvalues.takeWhile
              (fun id => decide (localSlot < slotOfU s.heapUpvalues id))
            ++ s.heapUpvalues.length
              :: s.openUpvalues.dropWhile
                (fun id => decide (localSlot < slotOfU s.heapUpvalues id)) :=
        List.mem_append.mpr (Or.inr (List.mem_cons_self _ _))
      obtain ⟨n1, n2, n3, n4⟩ := exC' ⟨s.heapUpvalues.length, memN2, slotN2⟩
      have hfound := desc_slot_inj c3' _ n1 _ memN2 (n2.trans slotN2.symm)
      exact Prod.ext (hfound.trans hid.symm) (vm_update_eta _ _ _ n3 n4)
    · intro v
      refine upvalRead_write_self (captureUpvalue s localSlot).2
        (captureUpvalue s localSlot).1 localSlot v ?_ ?_
      · rw [hgetN2]
      · rw [hstate]
        exact hlt

/-- Witness for the capture claim: capturing stack slot `0` of a state with
one open upvalue at slot `1` inserts a fresh shared cell; the conclusion is
instantiated at that state. -/
theorem captureUpvalue_claim_witness :
    OpenListInv (captureUpvalue exVM2 0).2 ∧
    slotOfU (captureUpvalue exVM2 0).2.heapUpvalues (captureUpvalue exVM2 0).1 = 0 ∧
    captureUpvalue (captureUpvalue exVM2 0).2 0
      = ((captureUpvalue exVM2 0).1, (captureUpvalue exVM2 0).2) ∧
    (∀ v, upvalRead (upvalWrite (captureUpvalue exVM2 0).2
        (captureUpvalue exVM2 0).1 v) (captureUpvalue exVM2 0).1 = v) := by
  obtain ⟨h1, h2, h3, h4, h5, h6, h7, h8, h9⟩ :=
    captureUpvalue_claim exVM2 0 exVM2_inv (by decide)
  exact ⟨h1, h4, h8, h9⟩

/-! ## Claim C3: OP_RETURN -/

theorem getLast?_getD_eq_getD (l : List Value) :
    l.getLast?.getD Value.nil = l.getD (l.length - 1) Value.nil := by
  rw [List.getD_eq_getD_get?, List.get?_eq_getElem?, List.getLast?_eq_getElem?]

theorem getD_dropLast_lt (l : List Value) (j : Nat) (h : j < l.length - 1) :
    l.dropLast.getD j Value.nil = l.getD j Value.nil := by
  rw [List.dropLast_eq_take]
  exact getD_take_lt l (l.length - 1) j Value.nil h

/-- C3: executing `OP_RETURN` pops the result, closes exactly the open
upvalues at or above the returning frame's base slot, and pops the frame; if
the popped frame was the last one, the remaining script closure is popped and
`run` finishes with `INTERPRET_OK`; otherwise execution resumes in the caller
frame (whose saved instruction pointer becomes current) and the caller's
stack cursor ends at exactly the frame's base slot plus one, with the return
value stored in the slot that held the callee. -/
theorem opReturn_claim :
    ∀ (s : VM) (f : CallFrame) (restFrames : List CallFrame),
      s.frames = f :: restFrames → OpenListInv s → f.slots < s.stack.length →
      ((∀ g rest2, restFrames = g :: rest2 →
        ∃ s', opReturn s = StepResult.ok s' ∧
          s'.frames = restFrames ∧
          s'.stack.length = f.slots + 1 ∧
          s'.stack.getD f.slots Value.nil
            = s.stack.getD (s.stack.length - 1) Value.nil ∧
          (∀ j, j < f.slots → s'.stack.getD j Value.nil = s.stack.getD j Value.nil) ∧
          s'.openUpvalues = s.openUpvalues.filter
            (fun id => decide (slotOfU s.heapUpvalues id < f.slots)) ∧
          (∀ id ∈ s.openUpvalues, f.slots ≤ slotOfU s.heapUpvalues id →
            ((s'.heapUpvalues.getD id dfltUpvalue).location = Loc.ownClosed ∧
             (s'.heapUpvalues.getD id dfltUpvalue).closed
               = s.stack.dropLast.getD (slotOfU s.heapUpvalues id) Value.nil))) ∧
       (restFrames = [] →
        ∃ s', opReturn s = StepResult.finished s' ∧
          s'.frames = [] ∧
          s'.stack = s.stack.dropLast.dropLast ∧
          s'.openUpvalues = s.openUpvalues.filter
            (fun id => decide (slotOfU s.heapUpvalues id < f.slots)))) := by
  intro s f restFrames hframes hinv hlt
  obtain ⟨inv1, inv2, inv3⟩ := hinv
  have hopen : ∀ id ∈ s.openUpvalues,
      isOpenUv (s.heapUpvalues.getD id dfltUpvalue) = true :=
    fun id hid => (inv1 id hid).1
  have hnd : s.openUpvalues.Nodup := nodup_of_desc inv3
  obtain ⟨a1, a2, a3, a4⟩ :=
    closeUpvaluesAux_spec s.stack.dropLast f.slots s.openUpvalues s.heapUpvalues
      hopen hnd
  have hup : ∀ a b, slotOfU s.heapUpvalues b ≤ slotOfU s.heapUpvalues a →
      decide (f.slots ≤ slotOfU s.heapUpvalues b) = true →
      decide (f.slots ≤ slotOfU s.heapUpvalues a) = true := by
    intro a b hle hb
    rw [decide_eq_true_eq] at hb
    exact decide_eq_true (Nat.le_trans hb hle)
  obtain ⟨htw, hdw⟩ := desc_takeWhile_filter
    (fun id => decide (f.slots ≤ slotOfU s.heapUpvalues id)) hup s.openUpvalues inv3
  have hmemtw : ∀ id, id ∈ s.openUpvalues.takeWhile
        (fun id => decide (f.slots ≤ slotOfU s.heapUpvalues id))
      ↔ (id ∈ s.openUpvalues ∧ f.slots ≤ slotOfU s.heapUpvalues id) := by
    intro id
    rw [htw, List.mem_filter, decide_eq_true_eq]
  have hlist : (closeUpvaluesAux s.stack.dropLast s.heapUpvalues s.openUpvalues
      f.slots).2 = s.openUpvalues.filter
        (fun id => decide (slotOfU s.heapUpvalues id < f.slots)) := by
    rw [a1, hdw]
    exact List.filter_congr
      (fun x _ => bnot_decide_le f.slots (slotOfU s.heapUpvalues x))
  constructor
  · intro g rest2 hrest
    subst hrest
    refine ⟨{ s with
        stack := s.stack.dropLast.take f.slots ++ [s.stack.getLast?.getD Value.nil],
        frames := g :: rest2,
        heapUpvalues := (closeUpvaluesAux s.stack.dropLast s.heapUpvalues
          s.openUpvalues f.slots).1,
        openUpvalues := (closeUpvaluesAux s.stack.dropLast s.heapUpvalues
          s.openUpvalues f.slots).2 }, ?_, rfl, ?_, ?_, ?_, hlist, ?_⟩
    · simp only [opReturn, hframes, pop, closeUpvalues]
    · have htl : (s.stack.dropLast.take f.slots).length = f.slots := by
        rw [List.length_take, List.length_dropLast]
        omega
      rw [List.length_append, htl]
      rfl
    · have htl : (s.stack.dropLast.take f.slots).length = f.slots := by
        rw [List.length_take, List.length_dropLast]
        omega
      rw [List.getD_append_right _ _ _ _ (Nat.le_of_eq htl), htl, Nat.sub_self,
        List.getD_cons_zero, getLast?_getD_eq_getD]
    · intro j hj
      have htl : (s.stack.dropLast.take f.slots).length = f.slots := by
        rw [List.length_take, List.length_dropLast]
        omega
      rw [List.getD_append _ _ _ _ (by rw [htl]; exact hj),
        getD_take_lt _ _ _ _ hj, getD_dropLast_lt _ _ (by omega)]
    · intro id hid hge
      have hcl := a2 id ((hmemtw id).mpr ⟨hid, hge⟩)
      rw [hcl]
      exact ⟨rfl, rfl⟩
  · intro hrest
    subst hrest
    refine ⟨{ s with
        stack := s.stack.dropLast.dropLast,
        frames := [],
        heapUpvalues := (closeUpvaluesAux s.stack.dropLast s.heapUpvalues
          s.openUpvalues f.slots).1,
        openUpvalues := (closeUpvaluesAux s.stack.dropLast s.heapUpvalues
          s.openUpvalues f.slots).2 }, ?_, rfl, rfl, hlist⟩
    simp only [opReturn, hframes, pop, closeUpvalues]

theorem exVM3_inv : OpenListInv exVM3 := by
  unfold OpenListInv
  refine ⟨?_, ?_, ?_⟩ <;> decide

/-- Witness for the return claim: returning from the inner frame of `exVM3`
(base slot `1`) pops the result `9`, truncates the stack to the base slot,
stores the result in the slot that held the callee, pops the frame, and
closes the open upvalue at slot `1` over the stack value `4`. -/
theorem opReturn_claim_witness :
    ∃ s', opReturn exVM3 = StepResult.ok s' ∧
      s'.frames = [⟨0, 2, 0⟩] ∧
      s'.stack.length = 2 ∧
      s'.stack.getD 1 Value.nil = Value.num 9 ∧
      s'.openUpvalues = [] ∧
      (s'.heapUpvalues.getD 0 dfltUpvalue).location = Loc.ownClosed ∧
      (s'.heapUpvalues.getD 0 dfltUpvalue).closed = Value.num 4 := by
  obtain ⟨s', h1, h2, h3, h4, h5, h6, h7⟩ :=
    (opReturn_claim exVM3 ⟨1, 5, 1⟩ [⟨0, 2, 0⟩] rfl exVM3_inv (by decide)).1
      ⟨0, 2, 0⟩ [] rfl
  obtain ⟨hc1, hc2⟩ := h7 0 (by decide) (by decide)
  exact ⟨s', h1, h2, h3, h4.trans (by decide), h6.trans (by decide), hc1,
    hc2.trans (by decide)⟩

end Blang
